import Mathlib

/-!
Verification of the duplicate-photo-detection core (`utils/duplicate.py`).

The module compares all photos carrying a perceptual hash by Hamming
distance, groups transitive matches with a union-find structure, picks the
highest-scoring member of each retained group as lead, and persists group
ids and lead flags.  This file gives a shallow embedding of that module
(SQLite state becomes an explicit list of photo rows; numpy arrays become
lists of naturals) and proves the behavioural claims about it.
-/

/- ### Lexicographic order on identifiers

SQLite's `ORDER BY path` on a text column compares byte-wise; identifiers
are modelled as Lean strings compared by code points (equal to byte order
for UTF-8). -/

/-- Strict lexicographic order on character lists, by code point. -/
def lexLt : List Char → List Char → Bool
  | _, [] => false
  | [], _ :: _ => true
  | a :: as, b :: bs =>
    if a.toNat < b.toNat then true
    else if b.toNat < a.toNat then false
    else lexLt as bs

/-- Strict lexicographic order on identifiers. -/
def pathLt (a b : String) : Bool := lexLt a.data b.data

/-- Reflexive lexicographic order on identifiers. -/
def pathLe (a b : String) : Bool := !pathLt b a

/- ### Popcount table and Hamming distance (lines 107-114, 172-173) -/

/-- Fuel-driven helper for `popCount`: with fuel at least `n` it computes
the number of 1 bits of `n`; structural recursion on the fuel keeps the
definition evaluable by reduction. -/
def popCountAux : Nat → Nat → Nat
  | _, 0 => 0
  | 0, _ + 1 => 0
  | fuel + 1, n + 1 => (n + 1) % 2 + popCountAux fuel ((n + 1) / 2)

/-- Number of 1 bits in the binary representation of a natural number;
this is what `bin(i).count('1')` computes for the table entries. -/
def popCount (n : Nat) : Nat := popCountAux n n

/-- `_POPCOUNT_TABLE = np.array([bin(i).count('1') for i in range(256)])`. -/
def _POPCOUNT_TABLE : List Nat := (List.range 256).map popCount

/-- The distance computation of lines 111-114: starting from 0, for each of
the 8 bytes of the XOR result add the table entry of that byte. -/
def byteDistance (x : Nat) : Nat :=
  (List.range 8).foldl
    (fun distances byte_idx => distances + _POPCOUNT_TABLE.getD ((x >>> (byte_idx * 8)) &&& 0xFF) 0) 0

/-- Distance between two stored hashes as the source computes it:
`np.bitwise_xor` followed by the byte-table popcount. -/
def hamming (a b : Nat) : Nat := byteDistance (a ^^^ b)

/-- Spec-side definition: the true Hamming distance between two 64-bit
values, i.e. the number of bit positions below 64 where they differ. -/
def trueHamming (a b : Nat) : Nat :=
  ((List.range 64).filter (fun k => a.testBit k != b.testBit k)).length

/- ### The chunked pairwise scan (lines 92-119) -/

/-- `chunk_size = 1000` (line 92). -/
def chunk_size : Nat := 1000

/-- The index pairs visited by the chunked scan of lines 94-106:
`for i in range(0, n, chunk_size)`, then for each `abs_i` in the chunk the
comparison targets are all `j` in `range(abs_i + 1, n)`.  `range(0, n, c)`
has `⌈n / c⌉` elements. -/
def comparedPairs (n c : Nat) : List (Nat × Nat) :=
  (List.range' 0 ((n + c - 1) / c) c).flatMap fun i =>
    (List.range' i (min (i + c) n - i)).flatMap fun abs_i =>
      (List.range' (abs_i + 1) (n - (abs_i + 1))).map fun j => (abs_i, j)

/-- Spec-side definition: all pairs `(i, j)` with `i < j < n`, each once. -/
def allPairs (n : Nat) : List (Nat × Nat) :=
  (List.range n).flatMap fun i =>
    (List.range' (i + 1) (n - (i + 1))).map fun j => (i, j)

/-- The pairs actually merged (lines 117-119): the compared pairs whose
distance is at most `max_distance`, in visit order. -/
def matchedPairs (hashes : List Nat) (max_distance : Int) : List (Nat × Nat) :=
  (comparedPairs hashes.length chunk_size).filter fun ij =>
    (hamming (hashes.getD ij.1 0) (hashes.getD ij.2 0) : Int) ≤ max_distance

/- ### Union-find (`_UnionFind`, lines 15-36) -/

/-- Disjoint-set state: flat parent and rank lists (`_UnionFind`). -/
structure UnionFind where
  parent : List Nat
  rank : List Nat
deriving DecidableEq

/-- Parent lookup; indices outside the list behave as isolated roots
(every access in the source is in range). -/
def pget (p : List Nat) (x : Nat) : Nat := p.getD x x

/-- Rank lookup, defaulting to 0 outside the list. -/
def rget (r : List Nat) (x : Nat) : Nat := r.getD x 0

/-- `__init__`: `parent = list(range(n))`, `rank = [0] * n`. -/
def UnionFind.init (n : Nat) : UnionFind :=
  ⟨List.range n, List.replicate n 0⟩

/-- The body of `find` (lines 22-26): while `parent[x] != x`, set
`parent[x] = parent[parent[x]]` and move `x` to that grandparent (path
halving).  The loop is run with explicit fuel; fuel `parent.length`
suffices because ranks strictly increase along parent chains. -/
def findAux : Nat → List Nat → Nat → List Nat × Nat
  | 0, p, x => (p, x)
  | fuel + 1, p, x =>
    if pget p x = x then (p, x)
    else findAux fuel (p.set x (pget p (pget p x))) (pget p (pget p x))

/-- `_UnionFind.find`. -/
def UnionFind.find (uf : UnionFind) (x : Nat) : UnionFind × Nat :=
  let fp := findAux uf.parent.length uf.parent x
  (⟨fp.1, uf.rank⟩, fp.2)

/-- `_UnionFind.union` (lines 28-36): find both roots, stop if equal, else
link by rank (ties keep `ra` and bump its rank). -/
def UnionFind.union (uf : UnionFind) (a b : Nat) : UnionFind :=
  let fa := uf.find a
  let fb := fa.1.find b
  let ra := fa.2
  let rb := fb.2
  let uf2 := fb.1
  if ra = rb then uf2
  else
    let rr := if rget uf2.rank ra < rget uf2.rank rb then (rb, ra) else (ra, rb)
    let parent2 := uf2.parent.set rr.2 rr.1
    let rank2 :=
      if rget uf2.rank rr.1 = rget uf2.rank rr.2
      then uf2.rank.set rr.1 (rget uf2.rank rr.1 + 1)
      else uf2.rank
    ⟨parent2, rank2⟩

/-- Iterated parent lookup (proof-side semantics of parent chains). -/
def iterParent (p : List Nat) : Nat → Nat → Nat
  | 0, x => x
  | k + 1, x => iterParent p k (pget p x)

/-- The canonical root of `x`: follow parents `p.length` times (under the
union-find invariant every chain reaches its root within that many steps
and then stays there). -/
def rootOf (p : List Nat) (x : Nat) : Nat := iterParent p p.length x

/-- Invariant of the union-find state: the rank list matches the parent
list, parents stay in range, and ranks strictly increase from a non-root
node to its parent.  This is what makes the while loop of `find` terminate
and lets `rootOf` describe its result. -/
structure UFInv (p r : List Nat) : Prop where
  rankLen : r.length = p.length
  parentLt : ∀ x, x < p.length → pget p x < p.length
  rankLt : ∀ x, x < p.length → pget p x ≠ x → rget r x < rget r (pget p x)

/-- Symmetric membership of an index pair in a pair list (the edges fed to
the union-find structure, in either orientation). -/
def pairRel (ps : List (Nat × Nat)) (a b : Nat) : Prop :=
  (a, b) ∈ ps ∨ (b, a) ∈ ps

/- ### The photos table and the pipeline state -/

/-- One row of the photos table, with the columns `detect_duplicates`
touches: `path` (unique identifier), `phash` (nullable hex text),
`aggregate` (nullable quality score, modelled as an integer), and the two
columns written back. -/
structure PhotoRow where
  path : String
  phash : Option String
  aggregate : Option Int
  duplicate_group_id : Option Nat
  is_duplicate_lead : Bool
deriving DecidableEq

/-- The photos table. -/
abbrev Store := List PhotoRow

/-- `SELECT path, phash, aggregate FROM photos WHERE phash IS NOT NULL
ORDER BY path` (lines 71-75). -/
def loadRows (db : Store) : List PhotoRow :=
  List.insertionSort (fun a b => pathLe a.path b.path = true)
    (db.filter fun ph => ph.phash.isSome)

/-- Value of one hex digit. -/
def hexDigit (c : Char) : Option Nat :=
  if '0' ≤ c ∧ c ≤ '9' then some (c.toNat - '0'.toNat)
  else if 'a' ≤ c ∧ c ≤ 'f' then some (c.toNat - 'a'.toNat + 10)
  else if 'A' ≤ c ∧ c ≤ 'F' then some (c.toNat - 'A'.toNat + 10)
  else none

/-- `_hex_to_uint64` (lines 39-41): `int(hex_str, 16)`.  The hex-digit core
is modelled: a non-empty string of hex digits parses to its value, anything
else fails (Python's ValueError). -/
def _hex_to_uint64 (s : String) : Option Nat :=
  if s.data.isEmpty then none
  else s.data.foldl
    (fun acc c => acc.bind fun v => (hexDigit c).map fun d => 16 * v + d) (some 0)

/-- The errors the load phase can raise; `dataError` stands for the
ValueError of `int(hex_str, 16)` and the OverflowError of the `np.uint64`
conversion (line 87) — the spec's `DataError`. -/
inductive DetectErr where
  | dataError
deriving DecidableEq

/-- Line 87: `np.array([_hex_to_uint64(r['phash']) for r in rows],
dtype=np.uint64)`; a hash that does not parse, or whose value does not fit
in 64 bits, raises before anything is written. -/
def parseHashes : List PhotoRow → Except DetectErr (List Nat)
  | [] => .ok []
  | r :: rs =>
    match _hex_to_uint64 (r.phash.getD "") with
    | none => .error .dataError
    | some v =>
      if 2 ^ 64 ≤ v then .error .dataError
      else
        match parseHashes rs with
        | .error e => .error e
        | .ok vs => .ok (v :: vs)

/-- Lines 122-127: `for idx in range(n): root = uf.find(idx); ...` — the
find calls mutate the structure; the returned list holds each index's root
in index order. -/
def collectRoots (uf : UnionFind) (n : Nat) : UnionFind × List Nat :=
  (List.range n).foldl
    (fun acc idx =>
      let fr := acc.1.find idx
      (fr.1, acc.2 ++ [fr.2]))
    (uf, [])

/-- The member indices of the component with root `r`, in increasing index
order (the insertion order of the `groups` dict of lines 122-127). -/
def membersOf (roots : List Nat) (r : Nat) : List Nat :=
  (List.range roots.length).filter fun i => roots.getD i 0 == r

/-- The roots of the retained groups (≥ 2 members, line 130) in increasing
root order: `sorted(dup_groups.items())` (line 151) orders by the
union-find root, and every root is an index below `n`. -/
def dupRootsSorted (roots : List Nat) : List Nat :=
  (List.range roots.length).filter fun r => 2 ≤ (membersOf roots r).length

/-- Line 153: `best_idx = max(members, key=lambda idx: aggregates[idx])` —
Python's `max` keeps the first element attaining the maximal key.  (The
members list of a retained group is never empty.) -/
def maxByAgg (aggregates : List Int) : List Nat → Nat
  | [] => 0
  | m :: ms =>
    ms.foldl (fun best idx =>
      if aggregates.getD best 0 < aggregates.getD idx 0 then idx else best) m

/-- Effect on one row of clearing (`SET duplicate_group_id = NULL,
is_duplicate_lead = 0`). -/
def clearPhoto (ph : PhotoRow) : PhotoRow :=
  { ph with duplicate_group_id := none, is_duplicate_lead := false }

/-- `UPDATE photos SET duplicate_group_id = NULL, is_duplicate_lead = 0`
(lines 137 and 148). -/
def clearAll (db : Store) : Store :=
  db.map clearPhoto

/-- Effect on one row of the UPDATE of lines 157-160 for member `idx`:
rows whose path matches get the group id, and the lead flag exactly when
`idx` is the chosen best index. -/
def markPhotoStep (paths : List String) (group_id best_idx idx : Nat)
    (ph : PhotoRow) : PhotoRow :=
  if ph.path = paths.getD idx "" then
    { ph with duplicate_group_id := some group_id,
              is_duplicate_lead := idx == best_idx }
  else ph

/-- Lines 155-161: write one group's id and lead flags, member by member,
updating the row whose path matches. -/
def markGroup (db : Store) (paths : List String) (group_id best_idx : Nat)
    (members : List Nat) : Store :=
  members.foldl
    (fun st idx => st.map (markPhotoStep paths group_id best_idx idx))
    db

/-- Proof-side restatement of `markGroup` as a single-row function. -/
def markPhotoGroup (paths : List String) (group_id best_idx : Nat)
    (members : List Nat) (ph : PhotoRow) : PhotoRow :=
  members.foldl
    (fun ph idx => markPhotoStep paths group_id best_idx idx ph)
    ph

/-- Proof-side restatement of the whole write loop (lines 150-162) as a
single-row function: iterate the retained groups in sorted root order with
ids counting up from `g0`. -/
def writePhoto (paths : List String) (aggregates : List Int) (roots : List Nat)
    (g0 : Nat) (ph : PhotoRow) : PhotoRow :=
  ((dupRootsSorted roots).foldl
    (fun acc root =>
      (markPhotoGroup paths acc.2 (maxByAgg aggregates (membersOf roots root))
        (membersOf roots root) acc.1, acc.2 + 1))
    (ph, g0)).1

/-- Lines 150-162: iterate the retained groups in sorted root order with
`group_id` starting at 1 and incrementing. -/
def writeGroups (db : Store) (paths : List String) (aggregates : List Int)
    (roots : List Nat) : Store :=
  ((dupRootsSorted roots).foldl
    (fun acc root =>
      let members := membersOf roots root
      let best_idx := maxByAgg aggregates members
      (markGroup acc.1 paths acc.2 best_idx members, acc.2 + 1))
    (db, 1)).1

/-- `sum(len(m) for m in dup_groups.values())` (lines 143 and 166). -/
def totalMembers (roots : List Nat) : Nat :=
  ((dupRootsSorted roots).map fun r => (membersOf roots r).length).sum

/-- The numbers printed by the final report (lines 166-169): group count,
total photos involved, and non-lead (hideable) count. -/
structure Summary where
  groups : Nat
  total : Nat
  hidden : Nat
deriving DecidableEq

/-- Observable outcome of one run: the state of the photos table, the
error raised (if any), the reported summary numbers (if printed), and the
Python function's return value — every `return` in the source is bare, so
the function always returns None. -/
structure DetectResult where
  store : Store
  err : Option DetectErr
  reported : Option Summary
  returned : Option Summary
deriving DecidableEq

/-- Line 63: `max_distance = int(64 * (1 - similarity_pct / 100))`,
modelled with exact integer arithmetic: `Int.tdiv` truncates toward zero
exactly like Python's `int()`; for every integer `0 ≤ p ≤ 100` the source's
float computation gives the same result (the exact value `64*(100-p)/100`
is either an exact small float or at distance ≥ 1/25 from the nearest
integer, far beyond double rounding error). -/
def maxDistance (similarity_pct : Int) : Int :=
  Int.tdiv (64 * (100 - similarity_pct)) 100

/-- `detect_duplicates(db_path, config_path=None)` (lines 44-169).
`similarity_setting` models the configured value behind
`settings.get('similarity_threshold_percent', 90)`; `ScoringConfig` is
constructed with `validate=False` and lives outside this module. -/
def detect_duplicates (db : Store) (similarity_setting : Option Int) : DetectResult :=
  let similarity_pct : Int := similarity_setting.getD 90
  let max_distance := maxDistance similarity_pct
  let rows := loadRows db
  if rows.isEmpty then ⟨db, none, none, none⟩
  else
    match parseHashes rows with
    | .error e => ⟨db, some e, none, none⟩
    | .ok hashes =>
      let paths := rows.map fun r => r.path
      let aggregates := rows.map fun r => r.aggregate.getD 0
      let n := paths.length
      let uf := (matchedPairs hashes max_distance).foldl
        (fun u pr => u.union pr.1 pr.2) (UnionFind.init n)
      let roots := (collectRoots uf n).2
      if (dupRootsSorted roots).isEmpty then ⟨clearAll db, none, none, none⟩
      else
        let db2 := writeGroups (clearAll db) paths aggregates roots
        let total := totalMembers roots
        ⟨db2, none,
          some ⟨(dupRootsSorted roots).length, total, total - (dupRootsSorted roots).length⟩,
          none⟩

/- ### Proof-side names for the pipeline stages of `detect_duplicates` -/

/-- `paths = [r['path'] for r in rows]` (line 81). -/
def detPaths (db : Store) : List String :=
  (loadRows db).map fun r => r.path

/-- `aggregates = [r['aggregate'] or 0.0 for r in rows]` (line 82). -/
def detAggs (db : Store) : List Int :=
  (loadRows db).map fun r => r.aggregate.getD 0

/-- The threshold computed from the configured setting (lines 59-63). -/
def detMaxd (setting : Option Int) : Int :=
  maxDistance (setting.getD 90)

/-- The union-find state after processing all matched pairs (lines 91-119). -/
def detUF (db : Store) (setting : Option Int) (hashes : List Nat) : UnionFind :=
  (matchedPairs hashes (detMaxd setting)).foldl (fun u pr => u.union pr.1 pr.2)
    (UnionFind.init (detPaths db).length)

/-- Each loaded index's root after the grouping pass (lines 121-127). -/
def detRoots (db : Store) (setting : Option Int) (hashes : List Nat) : List Nat :=
  (collectRoots (detUF db setting hashes) (detPaths db).length).2

/- ### Spec-side lookup helpers and the spec's id-assignment rule -/

/-- The row with a given identifier (identifiers are unique). -/
def photoOf (db : Store) (s : String) : Option PhotoRow :=
  db.find? fun ph => ph.path == s

/-- Group id persisted for an identifier. -/
def groupIdOfPath (db : Store) (s : String) : Option Nat :=
  match photoOf db s with
  | some ph => ph.duplicate_group_id
  | none => none

/-- Lead flag persisted for an identifier. -/
def leadOfPath (db : Store) (s : String) : Option Bool :=
  (photoOf db s).map fun ph => ph.is_duplicate_lead

/-- Lexicographically smallest string of a list. -/
def lexMinPath : List String → String
  | [] => ""
  | s :: ss => ss.foldl (fun a b => if pathLt b a = true then b else a) s

/-- Modelled from the spec (§4.3): "order the retained groups by the
lexicographically smallest identifier among their members, then assign
sequential ids starting at 1 in that order" — the retained roots reordered
by the least member identifier. -/
def specDupRootsOrder (paths : List String) (roots : List Nat) : List Nat :=
  List.insertionSort
    (fun r1 r2 =>
      pathLe (lexMinPath ((membersOf roots r1).map fun i => paths.getD i ""))
             (lexMinPath ((membersOf roots r2).map fun i => paths.getD i "")) = true)
    (dupRootsSorted roots)

/-- Modelled from the spec: the group id the spec's deterministic rule
assigns to loaded photo index `i` (`none` when its component is not
retained). -/
def specGroupIdOfIdx (paths : List String) (roots : List Nat) (i : Nat) : Option Nat :=
  let r := roots.getD i 0
  if r ∈ dupRootsSorted roots
  then some ((specDupRootsOrder paths roots).findIdx (fun x => x == r) + 1)
  else none

/-- Spec-side: the pairwise match relation between loaded photo indices —
distinct indices whose stored hashes lie within the distance threshold. -/
def MatchRel (hashes : List Nat) (maxd : Int) (i j : Nat) : Prop :=
  i < hashes.length ∧ j < hashes.length ∧ i ≠ j ∧
    (hamming (hashes.getD i 0) (hashes.getD j 0) : Int) ≤ maxd

/- ### Concrete stores used as counterexamples and witnesses -/

/-- A fresh photo row with a hash and score. -/
def mkRow (s : String) (h : String) (q : Int) : PhotoRow :=
  ⟨s, some h, some q, none, false⟩

/-- Eight photos (already in identifier order) whose match pairs are
exactly (0,7), (1,2), (5,6), (5,7) at the default threshold 6: components
{a,f,g,h} (root index 5 by union-by-rank) and {b,c} (root index 1). -/
def db8 : Store :=
  [ mkRow "a" "000000000000000f" 0
  , mkRow "b" "000003ff00000000" 0
  , mkRow "c" "00000fff00000000" 0
  , mkRow "d" "0fff000000000000" 0
  , mkRow "e" "fff0000000000000" 0
  , mkRow "f" "0000000000000f00" 0
  , mkRow "g" "00000000003f0f00" 0
  , mkRow "h" "0000000000000000" 0 ]

/-- The parsed hash values of `db8` in load order. -/
def hs8 : List Nat :=
  [15, 4393751543808, 17587891077120, 1152640029630136320,
   18442240474082181120, 3840, 4132608, 0]

/-- Two identically-hashed photos carrying stale duplicate markings. -/
def db2c : Store :=
  [ ⟨"x", some "00000000000000ff", some 0, some 7, true⟩
  , ⟨"y", some "00000000000000ff", some 0, some 7, false⟩ ]

/-- One photo with no hash, carrying stale duplicate markings. -/
def dbStale : Store :=
  [ ⟨"s", none, some 0, some 3, true⟩ ]

/-- Two photos with maximally distant hashes carrying stale markings. -/
def dbW : Store :=
  [ ⟨"u", some "0000000000000000", some 0, some 5, true⟩
  , ⟨"v", some "ffffffffffffffff", some 0, some 5, false⟩ ]

/-- One photo whose stored hash is not parseable as hex. -/
def dbBad : Store :=
  [ ⟨"m", some "zz", some 0, none, false⟩ ]

/-! ## Basic facts about `popCount` -/

theorem popCountAux_congr :
    ∀ (f1 : Nat), ∀ {n : Nat}, n ≤ f1 → ∀ {f2 : Nat}, n ≤ f2 →
      popCountAux f1 n = popCountAux f2 n := by
  intro f1
  induction f1 with
  | zero =>
    intro n hn f2 _
    have hz : n = 0 := by omega
    subst hz
    cases f2 <;> rfl
  | succ f ih =>
    intro n hn f2 hn2
    cases n with
    | zero => cases f2 <;> rfl
    | succ m =>
      cases f2 with
      | zero => exact absurd hn2 (by omega)
      | succ f2 =>
        show (m + 1) % 2 + popCountAux f ((m + 1) / 2)
            = (m + 1) % 2 + popCountAux f2 ((m + 1) / 2)
        exact congrArg (fun t => (m + 1) % 2 + t)
          (ih (by omega) (by omega))

theorem popCount_zero : popCount 0 = 0 := rfl

theorem popCount_succ (n : Nat) :
    popCount (n + 1) = (n + 1) % 2 + popCount ((n + 1) / 2) := by
  show (n + 1) % 2 + popCountAux n ((n + 1) / 2)
      = (n + 1) % 2 + popCountAux ((n + 1) / 2) ((n + 1) / 2)
  exact congrArg (fun t => (n + 1) % 2 + t)
    (popCountAux_congr n (by omega) (by omega))

theorem popCount_eq_of_ne_zero {n : Nat} (h : n ≠ 0) :
    popCount n = n % 2 + popCount (n / 2) := by
  cases n with
  | zero => exact absurd rfl h
  | succ m => exact popCount_succ m

theorem popCount_mul_pow_add :
    ∀ (k a b : Nat), b < 2 ^ k → popCount (a * 2 ^ k + b) = popCount a + popCount b := by
  intro k
  induction k with
  | zero =>
    intro a b hb
    interval_cases b
    simp [popCount_zero]
  | succ k ih =>
    intro a b hb
    by_cases hz : a * 2 ^ (k + 1) + b = 0
    · have ha : a = 0 := by
        rcases Nat.add_eq_zero.mp hz with ⟨h1, -⟩
        exact (Nat.mul_eq_zero.mp h1).resolve_right (by positivity)
      have hb0 : b = 0 := (Nat.add_eq_zero.mp hz).2
      simp [ha, hb0, popCount_zero]
    · have hmod : (a * 2 ^ (k + 1) + b) % 2 = b % 2 := by
        have : a * 2 ^ (k + 1) + b = 2 * (a * 2 ^ k) + b := by ring
        rw [this, Nat.mul_add_mod]
      have hdiv : (a * 2 ^ (k + 1) + b) / 2 = a * 2 ^ k + b / 2 := by
        have : a * 2 ^ (k + 1) + b = 2 * (a * 2 ^ k) + b := by ring
        rw [this, Nat.mul_add_div (by decide)]
      have hb2 : b / 2 < 2 ^ k := by
        have h : b < 2 ^ k * 2 := by
          rw [← Nat.pow_succ]
          exact hb
        omega
      rw [popCount_eq_of_ne_zero hz, hmod, hdiv, ih a (b / 2) hb2]
      by_cases hbz : b = 0
      · simp [hbz, popCount_zero]
      · rw [popCount_eq_of_ne_zero hbz]; omega

theorem popCount_eq_countP :
    ∀ (k n : Nat), n < 2 ^ k → popCount n = (List.range k).countP fun i => n.testBit i := by
  intro k
  induction k with
  | zero =>
    intro n hn
    interval_cases n
    simp [popCount_zero]
  | succ k ih =>
    intro n hn
    have hrec : (List.range (k + 1)).countP (fun i => n.testBit i)
        = ((if n.testBit 0 then 1 else 0) + (List.range k).countP fun i => (n / 2).testBit i) := by
      rw [List.range_succ_eq_map, List.countP_cons, List.countP_map]
      have : ((fun i => n.testBit i) ∘ Nat.succ) = fun i => (n / 2).testBit i := by
        funext i
        simp [Function.comp, Nat.testBit_succ]
      rw [this]
      by_cases h0 : n.testBit 0 <;> simp [h0, Nat.add_comm]
    rw [hrec, ← ih (n / 2) (Nat.div_lt_of_lt_mul (by rw [← Nat.pow_succ']; exact hn))]
    by_cases hz : n = 0
    · simp [hz, popCount, Nat.zero_testBit]
    · rw [popCount_eq_of_ne_zero hz, Nat.testBit_zero]
      rcases Nat.mod_two_eq_zero_or_one n with h | h <;> simp [h]

theorem popCount_le (k n : Nat) (hn : n < 2 ^ k) : popCount n ≤ k := by
  rw [popCount_eq_countP k n hn]
  calc (List.range k).countP (fun i => n.testBit i) ≤ (List.range k).length :=
        List.countP_le_length _
    _ = k := List.length_range k

theorem popCount_eq_zero {n : Nat} (hn : n < 2 ^ 64) (h : popCount n = 0) : n = 0 := by
  rw [popCount_eq_countP 64 n hn, List.countP_eq_zero] at h
  refine Nat.eq_of_testBit_eq fun i => ?_
  rw [Nat.zero_testBit]
  by_cases hi : i < 64
  · have := h i (List.mem_range.mpr hi)
    simpa using this
  · exact Nat.testBit_lt_two_pow (lt_of_lt_of_le hn (Nat.pow_le_pow_right (by decide) (by omega)))

/-! ## The byte-table distance equals the true Hamming distance -/

theorem table_getD (i : Nat) (hi : i < 256) : _POPCOUNT_TABLE.getD i 0 = popCount i := by
  rw [_POPCOUNT_TABLE, List.getD_eq_getElem?_getD, List.getElem?_map,
    List.getElem?_range hi]
  rfl

theorem foldl_add_eq_sum (f : Nat → Nat) :
    ∀ (l : List Nat) (init : Nat), l.foldl (fun acc i => acc + f i) init = init + (l.map f).sum := by
  intro l
  induction l with
  | nil => simp
  | cons a l ih => intro init; simp [ih, Nat.add_assoc]

theorem byteDistance_eq_sum (x : Nat) :
    byteDistance x = ((List.range 8).map fun b => popCount (x / 2 ^ (b * 8) % 256)).sum := by
  rw [byteDistance, foldl_add_eq_sum, Nat.zero_add]
  congr 1
  refine List.map_congr_left fun b hb => ?_
  have h1 : x >>> (b * 8) = x / 2 ^ (b * 8) := Nat.shiftRight_eq_div_pow x (b * 8)
  have h2 : x / 2 ^ (b * 8) &&& 0xFF = x / 2 ^ (b * 8) % 256 := by
    have := Nat.and_pow_two_sub_one_eq_mod (x / 2 ^ (b * 8)) 8
    simpa using this
  rw [h1, h2, table_getD _ (Nat.mod_lt _ (by decide))]

theorem bytes_sum_eq_popCount :
    ∀ (k x : Nat), x < 2 ^ (8 * k) →
      ((List.range k).map fun b => popCount (x / 2 ^ (b * 8) % 256)).sum = popCount x := by
  intro k
  induction k with
  | zero =>
    intro x hx
    interval_cases x
    simp [popCount_zero]
  | succ k ih =>
    intro x hx
    rw [List.range_succ_eq_map, List.map_cons, List.map_map, List.sum_cons]
    have hshift : ∀ b : Nat, x / 2 ^ (Nat.succ b * 8) = (x / 256) / 2 ^ (b * 8) := by
      intro b
      rw [Nat.div_div_eq_div_mul]
      congr 1
      rw [Nat.succ_mul, Nat.pow_add]
      ring
    have hcomp : ((fun b => popCount (x / 2 ^ (b * 8) % 256)) ∘ Nat.succ)
        = fun b => popCount ((x / 256) / 2 ^ (b * 8) % 256) := by
      funext b
      simp [Function.comp, hshift]
    rw [hcomp, ih (x / 256) (by
      rw [Nat.div_lt_iff_lt_mul (by decide)]
      calc x < 2 ^ (8 * (k + 1)) := hx
        _ = 2 ^ (8 * k) * 256 := by rw [Nat.mul_succ, Nat.pow_add])]
    have hx0 : x / 2 ^ (0 * 8) % 256 = x % 256 := by simp
    rw [hx0]
    have hsplit : x = (x / 256) * 2 ^ 8 + x % 256 := by
      have := Nat.div_add_mod x 256
      omega
    conv_rhs => rw [hsplit]
    rw [popCount_mul_pow_add 8 (x / 256) (x % 256) (Nat.mod_lt _ (by decide))]
    omega

theorem byteDistance_eq_popCount (x : Nat) (hx : x < 2 ^ 64) : byteDistance x = popCount x := by
  rw [byteDistance_eq_sum]
  exact bytes_sum_eq_popCount 8 x hx

theorem trueHamming_eq_popCount (a b : Nat) (ha : a < 2 ^ 64) (hb : b < 2 ^ 64) :
    trueHamming a b = popCount (a ^^^ b) := by
  rw [trueHamming, ← List.countP_eq_length_filter,
    popCount_eq_countP 64 (a ^^^ b) (Nat.xor_lt_two_pow ha hb)]
  refine List.countP_congr fun k _ => ?_
  rw [Nat.testBit_xor]

/-- The computed distance agrees with the true Hamming distance on all
64-bit inputs. -/
theorem hamming_eq_trueHamming (a b : Nat) (ha : a < 2 ^ 64) (hb : b < 2 ^ 64) :
    hamming a b = trueHamming a b := by
  rw [hamming, trueHamming_eq_popCount a b ha hb,
    byteDistance_eq_popCount _ (Nat.xor_lt_two_pow ha hb)]

theorem hamming_self (a : Nat) : hamming a a = 0 := by
  rw [hamming, Nat.xor_self, byteDistance_eq_popCount 0 (by norm_num)]
  simp [popCount_zero]

theorem hamming_comm (a b : Nat) : hamming a b = hamming b a := by
  rw [hamming, hamming, Nat.xor_comm]

theorem hamming_le_64 (a b : Nat) (ha : a < 2 ^ 64) (hb : b < 2 ^ 64) :
    hamming a b ≤ 64 := by
  rw [hamming, byteDistance_eq_popCount _ (Nat.xor_lt_two_pow ha hb)]
  exact popCount_le 64 _ (Nat.xor_lt_two_pow ha hb)

theorem hamming_eq_zero_iff (a b : Nat) (ha : a < 2 ^ 64) (hb : b < 2 ^ 64) :
    hamming a b = 0 ↔ a = b := by
  constructor
  · intro h
    rw [hamming, byteDistance_eq_popCount _ (Nat.xor_lt_two_pow ha hb)] at h
    exact Nat.xor_eq_zero.mp (popCount_eq_zero (Nat.xor_lt_two_pow ha hb) h)
  · intro h
    rw [h]
    exact hamming_self b

/-! ## The chunked scan visits every ordered pair exactly once -/

theorem ceil_div_mul_ge (n c : Nat) (hc : 0 < c) : n ≤ (n + c - 1) / c * c := by
  by_contra hcon
  push_neg at hcon
  have h1 : ((n + c - 1) / c + 1) * c ≤ n + c - 1 := by
    have h2 : (n + c - 1) / c * c + c ≤ n + c - 1 := by
      revert hcon
      generalize (n + c - 1) / c * c = t
      intro hcon
      omega
    calc ((n + c - 1) / c + 1) * c = (n + c - 1) / c * c + c := by ring
      _ ≤ n + c - 1 := h2
  have h3 : (n + c - 1) / c + 1 ≤ (n + c - 1) / c := (Nat.le_div_iff_mul_le hc).mpr h1
  omega

theorem chunk_cover (n c : Nat) :
    ∀ (k s : Nat),
      (List.range' s k c).flatMap (fun i => List.range' i (min (i + c) n - i))
        = List.range' s (min (s + k * c) n - s) := by
  intro k
  induction k with
  | zero =>
    intro s
    simp [List.range', Nat.sub_eq_zero_of_le (min_le_left s n)]
  | succ k ih =>
    intro s
    rw [List.range'_succ, List.flatMap_cons, ih (s + c)]
    have hmul : s + (k + 1) * c = s + c + k * c := by ring
    rw [hmul]
    rcases le_or_lt (s + c) n with hsc | hsc
    · have hA : min (s + c) n - s = c := by rw [min_eq_left hsc]; omega
      have happ := List.range'_append s c (min (s + c + k * c) n - (s + c)) 1
      simp only [one_mul] at happ
      rw [hA, happ]
      congr 1
      revert hsc
      generalize k * c = t
      intro hsc
      omega
    · have hB : min (s + c + k * c) n - (s + c) = 0 := by
        revert hsc
        generalize k * c = t
        intro hsc
        omega
      rw [hB]
      simp only [List.range'_zero, List.append_nil]
      congr 1
      revert hsc
      generalize k * c = t
      intro hsc
      omega

theorem comparedPairs_eq_allPairs (n : Nat) : comparedPairs n chunk_size = allPairs n := by
  rw [comparedPairs, allPairs]
  rw [← List.flatMap_assoc, chunk_cover n chunk_size _ 0]
  have hK : min (0 + (n + chunk_size - 1) / chunk_size * chunk_size) n - 0 = n := by
    have := ceil_div_mul_ge n chunk_size (by rw [chunk_size]; omega)
    omega
  rw [hK, ← List.range_eq_range']

theorem mem_allPairs (n i j : Nat) : (i, j) ∈ allPairs n ↔ i < j ∧ j < n := by
  rw [allPairs]
  simp only [List.mem_flatMap, List.mem_map, List.mem_range, List.mem_range'_1,
    Prod.mk.injEq]
  constructor
  · rintro ⟨a, ha, j', ⟨h1, h2⟩, rfl, rfl⟩
    omega
  · rintro ⟨hij, hjn⟩
    exact ⟨i, by omega, j, ⟨by omega, by omega⟩, rfl, rfl⟩

theorem allPairs_nodup (n : Nat) : (allPairs n).Nodup := by
  rw [allPairs, List.nodup_flatMap]
  constructor
  · intro i _
    exact List.Nodup.map (fun a b hab => by simpa using hab) (List.nodup_range' _ _)
  · refine List.Pairwise.imp ?_ (List.nodup_range n)
    intro a b hab pr hpa hpb
    rcases List.mem_map.mp hpa with ⟨j1, -, rfl⟩
    rcases List.mem_map.mp hpb with ⟨j2, -, heq⟩
    exact hab (congrArg Prod.fst heq).symm

theorem mem_matchedPairs (hashes : List Nat) (maxd : Int) (i j : Nat) :
    (i, j) ∈ matchedPairs hashes maxd ↔
      i < j ∧ j < hashes.length ∧
        (hamming (hashes.getD i 0) (hashes.getD j 0) : Int) ≤ maxd := by
  rw [matchedPairs, List.mem_filter, comparedPairs_eq_allPairs, mem_allPairs]
  simp only [decide_eq_true_eq]
  tauto

theorem matchedPairs_nodup (hashes : List Nat) (maxd : Int) :
    (matchedPairs hashes maxd).Nodup := by
  rw [matchedPairs, comparedPairs_eq_allPairs]
  exact List.Nodup.filter _ (allPairs_nodup _)

theorem matchedPairs_lt (hashes : List Nat) (maxd : Int) :
    ∀ pr ∈ matchedPairs hashes maxd, pr.1 < hashes.length ∧ pr.2 < hashes.length := by
  intro pr hpr
  rcases pr with ⟨i, j⟩
  rcases (mem_matchedPairs hashes maxd i j).mp hpr with ⟨h1, h2, -⟩
  exact ⟨by omega, h2⟩

/-! ## Union-find: parent chains, roots, and the find loop -/

theorem pget_out_of_range {p : List Nat} {x : Nat} (h : p.length ≤ x) : pget p x = x :=
  List.getD_eq_default _ _ h

theorem iterParent_succ_out (p : List Nat) (k x : Nat) :
    iterParent p (k + 1) x = pget p (iterParent p k x) := by
  induction k generalizing x with
  | zero => rfl
  | succ k ih =>
    rw [iterParent, ih (pget p x), ← iterParent]

theorem iterParent_add (p : List Nat) (a b x : Nat) :
    iterParent p (a + b) x = iterParent p b (iterParent p a x) := by
  induction a generalizing x with
  | zero => rw [Nat.zero_add]; rfl
  | succ a ih =>
    have h : a + 1 + b = (a + b) + 1 := by omega
    rw [h]
    show iterParent p (a + b) (pget p x) = iterParent p b (iterParent p (a + 1) x)
    rw [ih (pget p x)]
    rfl

theorem isRoot_iterParent {p : List Nat} {x : Nat} (h : pget p x = x) (k : Nat) :
    iterParent p k x = x := by
  induction k with
  | zero => rfl
  | succ k ih => rw [iterParent, h, ih]

theorem iterParent_lt {p r : List Nat} (hInv : UFInv p r) {x : Nat} (hx : x < p.length) :
    ∀ k, iterParent p k x < p.length := by
  intro k
  induction k generalizing x with
  | zero => exact hx
  | succ k ih =>
    show iterParent p k (pget p x) < p.length
    exact ih (hInv.parentLt x hx)

theorem rget_le_iterParent {p r : List Nat} (hInv : UFInv p r) {x : Nat} (hx : x < p.length) :
    ∀ k, rget r x ≤ rget r (iterParent p k x) := by
  intro k
  induction k generalizing x with
  | zero => exact le_refl _
  | succ k ih =>
    show rget r x ≤ rget r (iterParent p k (pget p x))
    by_cases hroot : pget p x = x
    · rw [hroot]
      exact ih hx
    · exact le_trans (le_of_lt (hInv.rankLt x hx hroot)) (ih (hInv.parentLt x hx))

theorem exists_root_lt {p r : List Nat} (hInv : UFInv p r) {x : Nat} (hx : x < p.length) :
    ∃ k, k < p.length ∧ pget p (iterParent p k x) = iterParent p k x := by
  by_contra hcon
  push_neg at hcon
  have hmono : ∀ j, j ≤ p.length → ∀ i, i < j →
      rget r (iterParent p i x) < rget r (iterParent p j x) := by
    intro j
    induction j with
    | zero => omega
    | succ j ihj =>
      intro hj i hi
      have hstep : rget r (iterParent p j x) < rget r (iterParent p (j + 1) x) := by
        have hnr := hcon j (by omega)
        rw [iterParent_succ_out]
        exact hInv.rankLt _ (iterParent_lt hInv hx j) hnr
      rcases Nat.lt_succ_iff_lt_or_eq.mp hi with h | h
      · exact lt_trans (ihj (by omega) i h) hstep
      · rw [h]; exact hstep
  have hinj : Function.Injective
      (fun i : Fin (p.length + 1) =>
        (⟨iterParent p i.1 x, iterParent_lt hInv hx i.1⟩ : Fin p.length)) := by
    intro i j hij
    simp only [Fin.mk.injEq] at hij
    by_contra hne
    have hne' : i.1 ≠ j.1 := fun h => hne (Fin.ext h)
    rcases Nat.lt_or_ge i.1 j.1 with h | h
    · have hlt := hmono j.1 (by omega) i.1 h
      rw [hij] at hlt
      omega
    · have hji : j.1 < i.1 := by omega
      have hlt := hmono i.1 (by omega) j.1 hji
      rw [hij] at hlt
      omega
  have hcard := Fintype.card_le_of_injective _ hinj
  simp only [Fintype.card_fin] at hcard
  omega

theorem rootOf_isRoot {p r : List Nat} (hInv : UFInv p r) (x : Nat) :
    pget p (rootOf p x) = rootOf p x := by
  by_cases hx : x < p.length
  · obtain ⟨k, hk, hroot⟩ := exists_root_lt hInv hx
    have heq : rootOf p x = iterParent p k x := by
      rw [rootOf]
      have hsplit : p.length = k + (p.length - k) := by omega
      rw [hsplit, iterParent_add, isRoot_iterParent hroot]
    rw [heq]
    exact hroot
  · have hout : pget p x = x := pget_out_of_range (le_of_not_lt hx)
    rw [rootOf, isRoot_iterParent hout]
    exact hout

theorem rootOf_eq_self_of_isRoot {p : List Nat} {x : Nat} (h : pget p x = x) :
    rootOf p x = x :=
  isRoot_iterParent h _

theorem root_unique (p : List Nat) {x z1 z2 : Nat} {k1 k2 : Nat}
    (h1 : iterParent p k1 x = z1) (hr1 : pget p z1 = z1)
    (h2 : iterParent p k2 x = z2) (hr2 : pget p z2 = z2) : z1 = z2 := by
  rcases le_total k1 k2 with h | h
  · have hsplit : iterParent p k2 x = iterParent p (k2 - k1) (iterParent p k1 x) := by
      rw [← iterParent_add]
      congr 1
      omega
    rw [h1, isRoot_iterParent hr1] at hsplit
    rw [← h2, hsplit]
  · have hsplit : iterParent p k1 x = iterParent p (k1 - k2) (iterParent p k2 x) := by
      rw [← iterParent_add]
      congr 1
      omega
    rw [h2, isRoot_iterParent hr2] at hsplit
    rw [← h1, hsplit]

theorem rootOf_iterParent {p r : List Nat} (hInv : UFInv p r) (x k : Nat) :
    rootOf p (iterParent p k x) = rootOf p x := by
  have h1 : iterParent p (k + p.length) x = rootOf p (iterParent p k x) := by
    rw [iterParent_add, rootOf]
  exact root_unique p h1 (rootOf_isRoot hInv _) rfl (rootOf_isRoot hInv x)

theorem rootOf_pget {p r : List Nat} (hInv : UFInv p r) (x : Nat) :
    rootOf p (pget p x) = rootOf p x := by
  have h : pget p x = iterParent p 1 x := rfl
  rw [h, rootOf_iterParent hInv]

theorem rootOf_lt {p r : List Nat} (hInv : UFInv p r) {x : Nat} (hx : x < p.length) :
    rootOf p x < p.length :=
  iterParent_lt hInv hx _

theorem rootOf_rootOf {p r : List Nat} (hInv : UFInv p r) (x : Nat) :
    rootOf p (rootOf p x) = rootOf p x :=
  rootOf_eq_self_of_isRoot (rootOf_isRoot hInv x)

theorem isRoot_of_rootOf_eq_self {p r : List Nat} (hInv : UFInv p r) {x : Nat}
    (hx : rootOf p x = x) : pget p x = x := by
  by_cases hxl : x < p.length
  · by_contra hne
    have hlen : 0 < p.length := by omega
    have h1 : rget r x < rget r (pget p x) := hInv.rankLt x hxl hne
    have h2 : rget r (pget p x) ≤ rget r (iterParent p (p.length - 1) (pget p x)) :=
      rget_le_iterParent hInv (hInv.parentLt x hxl) _
    have h3 : iterParent p (p.length - 1) (pget p x) = rootOf p x := by
      rw [rootOf]
      have hsplit : p.length = 1 + (p.length - 1) := by omega
      conv_rhs => rw [hsplit]
      rw [iterParent_add]
      rfl
    rw [h3, hx] at h2
    omega
  · exact pget_out_of_range (le_of_not_lt hxl)

theorem pget_set {p : List Nat} {x v y : Nat} :
    pget (p.set x v) y = if x = y ∧ x < p.length then v else pget p y := by
  rw [pget, pget, List.getD_eq_getElem?_getD, List.getD_eq_getElem?_getD, List.getElem?_set]
  by_cases h1 : x = y
  · subst h1
    by_cases h2 : x < p.length
    · simp [h2]
    · have hlen : p.length ≤ x := by omega
      simp [h2, List.getElem?_eq_none hlen]
  · simp [h1]

theorem rget_set {r : List Nat} {x v y : Nat} :
    rget (r.set x v) y = if x = y ∧ x < r.length then v else rget r y := by
  rw [rget, rget, List.getD_eq_getElem?_getD, List.getD_eq_getElem?_getD, List.getElem?_set]
  by_cases h1 : x = y
  · subst h1
    by_cases h2 : x < r.length
    · simp [h2]
    · have hlen : r.length ≤ x := by omega
      simp [h2, List.getElem?_eq_none hlen]
  · simp [h1]

theorem halving_inv {p r : List Nat} (hInv : UFInv p r) {x : Nat} (hx : x < p.length)
    (hnr : pget p x ≠ x) :
    UFInv (p.set x (pget p (pget p x))) r ∧
    x ≠ pget p (pget p x) ∧
    rget r x < rget r (pget p (pget p x)) := by
  have hpx_lt : pget p x < p.length := hInv.parentLt x hx
  have hg_lt : pget p (pget p x) < p.length := hInv.parentLt _ hpx_lt
  have hrx_px : rget r x < rget r (pget p x) := hInv.rankLt x hx hnr
  have hrx_g : rget r x < rget r (pget p (pget p x)) := by
    by_cases hpxr : pget p (pget p x) = pget p x
    · rw [hpxr]
      exact hrx_px
    · exact lt_trans hrx_px (hInv.rankLt _ hpx_lt hpxr)
  have hxg : x ≠ pget p (pget p x) := by
    intro h
    rw [← h] at hrx_g
    omega
  refine ⟨⟨?_, ?_, ?_⟩, hxg, hrx_g⟩
  · rw [List.length_set]
    exact hInv.rankLen
  · intro y hy
    rw [List.length_set] at hy ⊢
    rw [pget_set]
    by_cases hc : x = y ∧ x < p.length
    · rw [if_pos hc]
      exact hg_lt
    · rw [if_neg hc]
      exact hInv.parentLt y hy
  · intro y hy hne
    rw [List.length_set] at hy
    rw [pget_set] at hne ⊢
    by_cases hc : x = y ∧ x < p.length
    · rw [if_pos hc] at hne ⊢
      rw [← hc.1]
      exact hrx_g
    · rw [if_neg hc] at hne ⊢
      exact hInv.rankLt y hy hne

theorem iterParent_set_of_rank {p r : List Nat} (hInv : UFInv p r) {x g : Nat} :
    ∀ (k : Nat) (z : Nat), z < p.length → rget r x < rget r z →
      iterParent (p.set x g) k z = iterParent p k z := by
  intro k
  induction k with
  | zero => intro z _ _; rfl
  | succ k ih =>
    intro z hz hrank
    have hzx : x ≠ z := by
      intro h
      rw [h] at hrank
      omega
    show iterParent (p.set x g) k (pget (p.set x g) z) = iterParent p k (pget p z)
    rw [pget_set, if_neg (by tauto)]
    apply ih (pget p z) (hInv.parentLt z hz)
    by_cases hzr : pget p z = z
    · rw [hzr]
      exact hrank
    · exact lt_trans hrank (hInv.rankLt z hz hzr)

theorem reach_set {p r : List Nat} (hInv : UFInv p r) {x : Nat} (hx : x < p.length)
    (hnr : pget p x ≠ x) :
    ∀ (k y : Nat), pget p (iterParent p k y) = iterParent p k y →
      ∃ m, iterParent (p.set x (pget p (pget p x))) m y = rootOf p y := by
  intro k
  induction k using Nat.strong_induction_on with
  | _ k ih =>
    intro y hy
    by_cases hyr : pget p y = y
    · exact ⟨0, (rootOf_eq_self_of_isRoot hyr).symm⟩
    · cases k with
      | zero => exact absurd hy hyr
      | succ k =>
        by_cases hyx : y = x
        · subst hyx
          by_cases hpxr : pget p (pget p y) = pget p y
          · refine ⟨1, ?_⟩
            show pget (p.set y (pget p (pget p y))) y = rootOf p y
            rw [pget_set, if_pos ⟨rfl, hx⟩, hpxr]
            rw [← rootOf_pget hInv y, rootOf_eq_self_of_isRoot hpxr]
          · cases k with
            | zero => exact absurd hy hpxr
            | succ k =>
              have hg : pget p (iterParent p k (pget p (pget p y))) =
                  iterParent p k (pget p (pget p y)) := hy
              obtain ⟨m, hm⟩ := ih k (by omega) (pget p (pget p y)) hg
              refine ⟨m + 1, ?_⟩
              show iterParent (p.set y (pget p (pget p y))) m
                  (pget (p.set y (pget p (pget p y))) y) = rootOf p y
              have hpg : pget (p.set y (pget p (pget p y))) y = pget p (pget p y) := by
                rw [pget_set, if_pos ⟨rfl, hx⟩]
              rw [hpg, hm, rootOf_pget hInv, rootOf_pget hInv]
        · have hy' : pget p (iterParent p k (pget p y)) = iterParent p k (pget p y) := hy
          obtain ⟨m, hm⟩ := ih k (by omega) (pget p y) hy'
          refine ⟨m + 1, ?_⟩
          show iterParent (p.set x (pget p (pget p x))) m
              (pget (p.set x (pget p (pget p x))) y) = rootOf p y
          have hpy : pget (p.set x (pget p (pget p x))) y = pget p y := by
            rw [pget_set, if_neg (by tauto)]
          rw [hpy, hm, rootOf_pget hInv]

theorem rootOf_set_halving {p r : List Nat} (hInv : UFInv p r) {x : Nat}
    (hx : x < p.length) (hnr : pget p x ≠ x) :
    ∀ y, rootOf (p.set x (pget p (pget p x))) y = rootOf p y := by
  obtain ⟨hInv', hxg, hrg⟩ := halving_inv hInv hx hnr
  intro y
  obtain ⟨m, hm⟩ := reach_set hInv hx hnr p.length y (rootOf_isRoot hInv y)
  have hroot' : pget (p.set x (pget p (pget p x))) (rootOf p y) = rootOf p y := by
    rw [pget_set]
    by_cases hc : x = rootOf p y ∧ x < p.length
    · exfalso
      have hroot := rootOf_isRoot hInv y
      rw [← hc.1] at hroot
      exact hnr hroot
    · rw [if_neg hc]
      exact rootOf_isRoot hInv y
  exact root_unique (p.set x (pget p (pget p x))) rfl (rootOf_isRoot hInv' y) hm hroot'

theorem findAux_spec :
    ∀ (fuel : Nat) (p r : List Nat) (x : Nat), UFInv p r →
      pget p (iterParent p fuel x) = iterParent p fuel x →
      (findAux fuel p x).2 = rootOf p x ∧
      (findAux fuel p x).1.length = p.length ∧
      UFInv (findAux fuel p x).1 r ∧
      (∀ y, rootOf (findAux fuel p x).1 y = rootOf p y) := by
  intro fuel
  induction fuel with
  | zero =>
    intro p r x hInv hroot
    exact ⟨(rootOf_eq_self_of_isRoot hroot).symm, rfl, hInv, fun y => rfl⟩
  | succ fuel ih =>
    intro p r x hInv hroot
    by_cases hr0 : pget p x = x
    · have hfa : findAux (fuel + 1) p x = (p, x) := by
        simp only [findAux, if_pos hr0]
      rw [hfa]
      exact ⟨(rootOf_eq_self_of_isRoot hr0).symm, rfl, hInv, fun y => rfl⟩
    · have hx : x < p.length := by
        by_contra hxl
        exact hr0 (pget_out_of_range (le_of_not_lt hxl))
      have hpx_lt : pget p x < p.length := hInv.parentLt x hx
      have hg_lt : pget p (pget p x) < p.length := hInv.parentLt _ hpx_lt
      obtain ⟨hInv', hxg, hrg⟩ := halving_inv hInv hx hr0
      have hroots' := rootOf_set_halving hInv hx hr0
      simp only [findAux, if_neg hr0]
      have hg_is : pget p (iterParent p fuel (pget p (pget p x))) =
          iterParent p fuel (pget p (pget p x)) := by
        by_cases hpxr : pget p (pget p x) = pget p x
        · rw [hpxr, isRoot_iterParent hpxr]
          exact hpxr
        · cases fuel with
          | zero => exact absurd hroot hpxr
          | succ f =>
            have hroot2 : pget p (iterParent p f (pget p (pget p x))) =
                iterParent p f (pget p (pget p x)) := hroot
            rw [iterParent_succ_out, hroot2]
            exact hroot2
      have htrans : ∀ k, iterParent (p.set x (pget p (pget p x))) k (pget p (pget p x)) =
          iterParent p k (pget p (pget p x)) :=
        fun k => iterParent_set_of_rank hInv k _ hg_lt hrg
      have hreach' : pget (p.set x (pget p (pget p x)))
          (iterParent (p.set x (pget p (pget p x))) fuel (pget p (pget p x))) =
          iterParent (p.set x (pget p (pget p x))) fuel (pget p (pget p x)) := by
        rw [htrans fuel, pget_set]
        by_cases hc : x = iterParent p fuel (pget p (pget p x)) ∧ x < p.length
        · exfalso
          have hle := rget_le_iterParent hInv hg_lt fuel
          rw [← hc.1] at hle
          omega
        · rw [if_neg hc]
          exact hg_is
      obtain ⟨h1, h2, h3, h4⟩ := ih (p.set x (pget p (pget p x))) r (pget p (pget p x)) hInv' hreach'
      refine ⟨?_, ?_, h3, fun y => ?_⟩
      · rw [h1, hroots' _, rootOf_pget hInv, rootOf_pget hInv]
      · rw [h2, List.length_set]
      · rw [h4 y, hroots' y]

theorem find_spec (uf : UnionFind) (x : Nat) (hInv : UFInv uf.parent uf.rank) :
    (uf.find x).2 = rootOf uf.parent x ∧
    (uf.find x).1.parent.length = uf.parent.length ∧
    (uf.find x).1.rank = uf.rank ∧
    UFInv (uf.find x).1.parent (uf.find x).1.rank ∧
    (∀ y, rootOf (uf.find x).1.parent y = rootOf uf.parent y) := by
  have hroot : pget uf.parent (iterParent uf.parent uf.parent.length x) =
      iterParent uf.parent uf.parent.length x := rootOf_isRoot hInv x
  obtain ⟨h1, h2, h3, h4⟩ := findAux_spec uf.parent.length uf.parent uf.rank x hInv hroot
  refine ⟨h1, h2, ?_, h3, h4⟩
  rfl

theorem iterParent_set_avoid {p : List Nat} {x g : Nat} :
    ∀ (k y : Nat), (∀ j, j ≤ k → iterParent p j y ≠ x) →
      iterParent (p.set x g) k y = iterParent p k y := by
  intro k
  induction k with
  | zero => intro y _; rfl
  | succ k ih =>
    intro y havoid
    have hy : x ≠ y := fun h => havoid 0 (by omega) h.symm
    show iterParent (p.set x g) k (pget (p.set x g) y) = iterParent p k (pget p y)
    rw [pget_set, if_neg (by tauto)]
    refine ih (pget p y) fun j hj => ?_
    exact havoid (j + 1) (by omega)

theorem reach_link {p : List Nat} {ra rb : Nat} (hra : pget p ra = ra)
    (hrb_lt : rb < p.length) (hne : ra ≠ rb) :
    ∀ (k y : Nat), iterParent p k y = rb →
      iterParent (p.set rb ra) (k + 1) y = ra := by
  intro k
  induction k with
  | zero =>
    intro y hy
    have hy' : y = rb := hy
    show pget (p.set rb ra) y = ra
    rw [hy', pget_set, if_pos ⟨rfl, hrb_lt⟩]
  | succ k ih =>
    intro y hy
    by_cases hyrb : y = rb
    · subst hyrb
      show iterParent (p.set y ra) (k + 1) (pget (p.set y ra) y) = ra
      rw [pget_set, if_pos ⟨rfl, hrb_lt⟩]
      apply isRoot_iterParent
      rw [pget_set, if_neg (fun hc => hne hc.1.symm)]
      exact hra
    · have hy' : iterParent p k (pget p y) = rb := hy
      show iterParent (p.set rb ra) (k + 1) (pget (p.set rb ra) y) = ra
      rw [pget_set, if_neg (fun hc => hyrb hc.1.symm)]
      exact ih (pget p y) hy'

theorem rootOf_link {p r : List Nat} (hInv : UFInv p r) {ra rb : Nat}
    (hra : pget p ra = ra) (hrb : pget p rb = rb) (hrb_lt : rb < p.length)
    (hne : ra ≠ rb) (y : Nat) :
    rootOf (p.set rb ra) y = if rootOf p y = rb then ra else rootOf p y := by
  have hlen' : (p.set rb ra).length = p.length := List.length_set p rb ra
  by_cases hcase : rootOf p y = rb
  · rw [if_pos hcase]
    have hylt : y < p.length := by
      by_contra hyl
      have hself : rootOf p y = y :=
        rootOf_eq_self_of_isRoot (pget_out_of_range (le_of_not_lt hyl))
      rw [hself] at hcase
      omega
    obtain ⟨k, hk, hkroot⟩ := exists_root_lt hInv hylt
    have hkrb : iterParent p k y = rb := by
      have h1 : rootOf p (iterParent p k y) = iterParent p k y :=
        rootOf_eq_self_of_isRoot hkroot
      rw [rootOf_iterParent hInv] at h1
      rw [← h1, hcase]
    have hreach := reach_link hra hrb_lt hne k y hkrb
    show iterParent (p.set rb ra) (p.set rb ra).length y = ra
    rw [hlen']
    have hsplit : p.length = (k + 1) + (p.length - (k + 1)) := by omega
    rw [hsplit, iterParent_add, hreach]
    apply isRoot_iterParent
    rw [pget_set, if_neg (fun hc => hne hc.1.symm)]
    exact hra
  · rw [if_neg hcase]
    have havoid : ∀ j, iterParent p j y ≠ rb := by
      intro j hj
      have h1 : rootOf p (iterParent p j y) = iterParent p j y := by
        rw [hj]
        exact rootOf_eq_self_of_isRoot hrb
      rw [rootOf_iterParent hInv, hj] at h1
      exact hcase h1
    show iterParent (p.set rb ra) (p.set rb ra).length y = rootOf p y
    rw [hlen', iterParent_set_avoid p.length y (fun j _ => havoid j)]
    rfl

theorem UFInv_link {p r : List Nat} (hInv : UFInv p r) {ra rb : Nat}
    (hra : pget p ra = ra) (hrb : pget p rb = rb)
    (hra_lt : ra < p.length) (hrb_lt : rb < p.length) (hne : ra ≠ rb)
    (hrank : rget r rb ≤ rget r ra) :
    UFInv (p.set rb ra)
      (if rget r ra = rget r rb then r.set ra (rget r ra + 1) else r) := by
  have hral : ra < r.length := by rw [hInv.rankLen]; exact hra_lt
  constructor
  · rw [List.length_set]
    by_cases hc : rget r ra = rget r rb
    · rw [if_pos hc, List.length_set]
      exact hInv.rankLen
    · rw [if_neg hc]
      exact hInv.rankLen
  · intro y hy
    rw [List.length_set] at hy ⊢
    rw [pget_set]
    by_cases hc : rb = y ∧ rb < p.length
    · rw [if_pos hc]
      exact hra_lt
    · rw [if_neg hc]
      exact hInv.parentLt y hy
  · intro y hy hne2
    rw [List.length_set] at hy
    rw [pget_set] at hne2 ⊢
    by_cases hc : rb = y ∧ rb < p.length
    · rw [if_pos hc] at hne2 ⊢
      obtain ⟨hc1, -⟩ := hc
      subst hc1
      by_cases htie : rget r ra = rget r rb
      · rw [if_pos htie, rget_set, rget_set,
          if_neg (fun hcc : ra = rb ∧ ra < r.length => hne hcc.1),
          if_pos ⟨rfl, hral⟩]
        omega
      · rw [if_neg htie]
        omega
    · rw [if_neg hc] at hne2 ⊢
      have hstep := hInv.rankLt y hy hne2
      by_cases htie : rget r ra = rget r rb
      · rw [if_pos htie, rget_set, rget_set]
        by_cases hcy : ra = y ∧ ra < r.length
        · exfalso
          obtain ⟨hcy1, -⟩ := hcy
          rw [← hcy1] at hne2
          exact hne2 hra
        · rw [if_neg hcy]
          by_cases hcp : ra = pget p y ∧ ra < r.length
          · rw [if_pos hcp]
            rw [← hcp.1] at hstep
            omega
          · rw [if_neg hcp]
            exact hstep
      · rw [if_neg htie]
        exact hstep

theorem merge_root_iff (F : Nat → Nat) (A B y z : Nat) :
    ((if F y = B then A else F y) = (if F z = B then A else F z)) ↔
      (F y = F z ∨ ((F y = A ∨ F y = B) ∧ (F z = A ∨ F z = B))) := by
  by_cases hy : F y = B <;> by_cases hz : F z = B
  · simp only [if_pos hy, if_pos hz]
    constructor
    · intro _
      exact Or.inl (hy.trans hz.symm)
    · intro _
      trivial
  · simp only [if_pos hy, if_neg hz]
    constructor
    · intro h
      exact Or.inr ⟨Or.inr hy, Or.inl h.symm⟩
    · rintro (h | ⟨h1, h2 | h2⟩)
      · exact absurd (h.symm.trans hy) hz
      · exact h2.symm
      · exact absurd h2 hz
  · simp only [if_neg hy, if_pos hz]
    constructor
    · intro h
      exact Or.inr ⟨Or.inl h, Or.inr hz⟩
    · rintro (h | ⟨h1 | h1, h2⟩)
      · exact absurd (h.trans hz) hy
      · exact h1
      · exact absurd h1 hy
  · simp only [if_neg hy, if_neg hz]
    constructor
    · intro h
      exact Or.inl h
    · rintro (h | ⟨h1 | h1, h2 | h2⟩)
      · exact h
      · exact h1.trans h2.symm
      · exact absurd h2 hz
      · exact absurd h1 hy
      · exact absurd h1 hy

theorem union_spec (uf : UnionFind) (a b : Nat) (hInv : UFInv uf.parent uf.rank)
    (ha : a < uf.parent.length) (hb : b < uf.parent.length) :
    UFInv (uf.union a b).parent (uf.union a b).rank ∧
    (uf.union a b).parent.length = uf.parent.length ∧
    ∀ y z, (rootOf (uf.union a b).parent y = rootOf (uf.union a b).parent z ↔
      (rootOf uf.parent y = rootOf uf.parent z ∨
        ((rootOf uf.parent y = rootOf uf.parent a ∨ rootOf uf.parent y = rootOf uf.parent b) ∧
         (rootOf uf.parent z = rootOf uf.parent a ∨ rootOf uf.parent z = rootOf uf.parent b)))) := by
  obtain ⟨hfa1, hfa2, hfa3, hfa4, hfa5⟩ := find_spec uf a hInv
  obtain ⟨hfb1, hfb2, hfb3, hfb4, hfb5⟩ := find_spec (uf.find a).1 b hfa4
  have hlen2 : ((uf.find a).1.find b).1.parent.length = uf.parent.length := by
    rw [hfb2, hfa2]
  have hroots2 : ∀ y, rootOf ((uf.find a).1.find b).1.parent y = rootOf uf.parent y := by
    intro y
    rw [hfb5, hfa5]
  have hRA : (uf.find a).2 = rootOf uf.parent a := hfa1
  have hRB : ((uf.find a).1.find b).2 = rootOf uf.parent b := by
    rw [hfb1, hfa5]
  have hRA_root : pget ((uf.find a).1.find b).1.parent (rootOf uf.parent a) =
      rootOf uf.parent a := by
    apply isRoot_of_rootOf_eq_self hfb4
    rw [hroots2, rootOf_rootOf hInv]
  have hRB_root : pget ((uf.find a).1.find b).1.parent (rootOf uf.parent b) =
      rootOf uf.parent b := by
    apply isRoot_of_rootOf_eq_self hfb4
    rw [hroots2, rootOf_rootOf hInv]
  have hRA_lt : rootOf uf.parent a < ((uf.find a).1.find b).1.parent.length := by
    rw [hlen2]
    exact rootOf_lt hInv ha
  have hRB_lt : rootOf uf.parent b < ((uf.find a).1.find b).1.parent.length := by
    rw [hlen2]
    exact rootOf_lt hInv hb
  simp only [UnionFind.union]
  by_cases heq : (uf.find a).2 = ((uf.find a).1.find b).2
  · rw [if_pos heq]
    refine ⟨hfb4, hlen2, fun y z => ?_⟩
    rw [hroots2, hroots2]
    have heqR : rootOf uf.parent a = rootOf uf.parent b := by
      rw [← hRA, ← hRB, heq]
    constructor
    · exact Or.inl
    · rintro (h | ⟨hy | hy, hz | hz⟩)
      · exact h
      · rw [hy, hz]
      · rw [hy, hz, heqR]
      · rw [hy, hz, ← heqR]
      · rw [hy, hz]
  · rw [if_neg heq]
    rw [hRA, hRB] at heq ⊢
    have hneR : rootOf uf.parent a ≠ rootOf uf.parent b := heq
    by_cases hlt : rget ((uf.find a).1.find b).1.rank (rootOf uf.parent a) <
        rget ((uf.find a).1.find b).1.rank (rootOf uf.parent b)
    · rw [if_pos hlt]
      dsimp only
      refine ⟨?_, ?_, fun y z => ?_⟩
      · exact UFInv_link hfb4 hRB_root hRA_root hRB_lt hRA_lt (Ne.symm hneR) (le_of_lt hlt)
      · rw [List.length_set]
        exact hlen2
      · rw [rootOf_link hfb4 hRB_root hRA_root hRA_lt (Ne.symm hneR) y,
          rootOf_link hfb4 hRB_root hRA_root hRA_lt (Ne.symm hneR) z,
          hroots2, hroots2]
        rw [merge_root_iff (rootOf uf.parent) (rootOf uf.parent b) (rootOf uf.parent a) y z]
        tauto
    · rw [if_neg hlt]
      dsimp only
      refine ⟨?_, ?_, fun y z => ?_⟩
      · exact UFInv_link hfb4 hRA_root hRB_root hRA_lt hRB_lt hneR (le_of_not_lt hlt)
      · rw [List.length_set]
        exact hlen2
      · rw [rootOf_link hfb4 hRA_root hRB_root hRB_lt hneR y,
          rootOf_link hfb4 hRA_root hRB_root hRB_lt hneR z,
          hroots2, hroots2]
        rw [merge_root_iff (rootOf uf.parent) (rootOf uf.parent a) (rootOf uf.parent b) y z]

/-! ## Processing the matched pairs computes the equivalence closure -/

theorem eqvGen_le {rel s : Nat → Nat → Prop}
    (h : ∀ u v, rel u v → Relation.EqvGen s u v) :
    ∀ y z, Relation.EqvGen rel y z → Relation.EqvGen s y z := by
  intro y z hyz
  induction hyz with
  | rel u v huv => exact h u v huv
  | refl u => exact Relation.EqvGen.refl u
  | symm u v _ ih => exact Relation.EqvGen.symm u v ih
  | trans u v w _ _ ih1 ih2 => exact Relation.EqvGen.trans u v w ih1 ih2

theorem eqvGen_sameRoot {p : List Nat} {rel : Nat → Nat → Prop}
    (h : ∀ u v, rel u v → rootOf p u = rootOf p v) :
    ∀ y z, Relation.EqvGen rel y z → rootOf p y = rootOf p z := by
  intro y z hyz
  induction hyz with
  | rel u v huv => exact h u v huv
  | refl u => rfl
  | symm u v _ ih => exact ih.symm
  | trans u v w _ _ ih1 ih2 => exact ih1.trans ih2

theorem UFInv_init (n : Nat) : UFInv (List.range n) (List.replicate n 0) := by
  have hpget : ∀ x, pget (List.range n) x = x := by
    intro x
    rw [pget, List.getD_eq_getElem?_getD]
    by_cases hx : x < n
    · rw [List.getElem?_range (by simpa using hx)]
      rfl
    · rw [List.getElem?_eq_none (by simpa using Nat.le_of_not_lt hx)]
      rfl
  constructor
  · simp
  · intro x hx
    rw [hpget]
    exact hx
  · intro x _ hne
    exact absurd (hpget x) hne

theorem rootOf_init (n : Nat) (y : Nat) : rootOf (UnionFind.init n).parent y = y := by
  apply rootOf_eq_self_of_isRoot
  show pget (List.range n) y = y
  rw [pget, List.getD_eq_getElem?_getD]
  by_cases hy : y < n
  · rw [List.getElem?_range (by simpa using hy)]
    rfl
  · rw [List.getElem?_eq_none (by simpa using Nat.le_of_not_lt hy)]
    rfl

theorem processPairs_spec :
    ∀ (pairs : List (Nat × Nat)) (uf : UnionFind), UFInv uf.parent uf.rank →
      (∀ pr ∈ pairs, pr.1 < uf.parent.length ∧ pr.2 < uf.parent.length) →
      UFInv (pairs.foldl (fun u pr => u.union pr.1 pr.2) uf).parent
            (pairs.foldl (fun u pr => u.union pr.1 pr.2) uf).rank ∧
      (pairs.foldl (fun u pr => u.union pr.1 pr.2) uf).parent.length = uf.parent.length ∧
      ∀ y z, (rootOf (pairs.foldl (fun u pr => u.union pr.1 pr.2) uf).parent y =
              rootOf (pairs.foldl (fun u pr => u.union pr.1 pr.2) uf).parent z ↔
        Relation.EqvGen
          (fun u v => rootOf uf.parent u = rootOf uf.parent v ∨ pairRel pairs u v) y z) := by
  intro pairs
  induction pairs with
  | nil =>
    intro uf hInv _
    refine ⟨hInv, rfl, fun y z => ?_⟩
    constructor
    · intro h
      exact Relation.EqvGen.rel y z (Or.inl h)
    · apply eqvGen_sameRoot
      intro u v huv
      rcases huv with h | h
      · exact h
      · rcases h with h | h <;> exact absurd h (List.not_mem_nil _)
  | cons pr ps ih =>
    intro uf hInv hbound
    obtain ⟨ha, hb⟩ := hbound pr (List.mem_cons_self pr ps)
    obtain ⟨hInv1, hlen1, hiff1⟩ := union_spec uf pr.1 pr.2 hInv ha hb
    have hbound1 : ∀ q ∈ ps, q.1 < (uf.union pr.1 pr.2).parent.length ∧
        q.2 < (uf.union pr.1 pr.2).parent.length := by
      intro q hq
      rw [hlen1]
      exact hbound q (List.mem_cons_of_mem _ hq)
    obtain ⟨hInv2, hlen2, hiff2⟩ := ih (uf.union pr.1 pr.2) hInv1 hbound1
    rw [List.foldl_cons]
    refine ⟨hInv2, by rw [hlen2, hlen1], fun y z => ?_⟩
    rw [hiff2 y z]
    have hpair_head : pairRel (pr :: ps) pr.1 pr.2 := by
      left
      have : pr = (pr.1, pr.2) := rfl
      rw [← this]
      exact List.mem_cons_self pr ps
    constructor
    · apply eqvGen_le
      intro u v huv
      rcases huv with h1 | h1
      · rcases (hiff1 u v).mp h1 with h2 | ⟨h2, h3⟩
        · exact Relation.EqvGen.rel u v (Or.inl h2)
        · have hab : Relation.EqvGen
              (fun u v => rootOf uf.parent u = rootOf uf.parent v ∨ pairRel (pr :: ps) u v)
              pr.1 pr.2 :=
            Relation.EqvGen.rel pr.1 pr.2 (Or.inr hpair_head)
          have hu1 : ∀ w, rootOf uf.parent u = rootOf uf.parent w →
              Relation.EqvGen
                (fun u v => rootOf uf.parent u = rootOf uf.parent v ∨ pairRel (pr :: ps) u v)
                u w :=
            fun w hw => Relation.EqvGen.rel u w (Or.inl hw)
          have hv1 : ∀ w, rootOf uf.parent v = rootOf uf.parent w →
              Relation.EqvGen
                (fun u v => rootOf uf.parent u = rootOf uf.parent v ∨ pairRel (pr :: ps) u v)
                w v :=
            fun w hw => Relation.EqvGen.symm v w (Relation.EqvGen.rel v w (Or.inl hw))
          rcases h2 with h2 | h2 <;> rcases h3 with h3 | h3
          · exact Relation.EqvGen.trans _ _ _ (hu1 _ h2) (hv1 _ h3)
          · exact Relation.EqvGen.trans _ _ _ (hu1 _ h2)
              (Relation.EqvGen.trans _ _ _ hab (hv1 _ h3))
          · exact Relation.EqvGen.trans _ _ _ (hu1 _ h2)
              (Relation.EqvGen.trans _ _ _ (Relation.EqvGen.symm _ _ hab) (hv1 _ h3))
          · exact Relation.EqvGen.trans _ _ _ (hu1 _ h2) (hv1 _ h3)
      · refine Relation.EqvGen.rel u v (Or.inr ?_)
        rcases h1 with h1 | h1
        · exact Or.inl (List.mem_cons_of_mem _ h1)
        · exact Or.inr (List.mem_cons_of_mem _ h1)
    · apply eqvGen_le
      intro u v huv
      rcases huv with h1 | h1
      · exact Relation.EqvGen.rel u v (Or.inl ((hiff1 u v).mpr (Or.inl h1)))
      · rcases h1 with h1 | h1
        · rcases List.mem_cons.mp h1 with h2 | h2
          · have hu : u = pr.1 := congrArg Prod.fst h2
            have hv : v = pr.2 := congrArg Prod.snd h2
            refine Relation.EqvGen.rel u v (Or.inl ((hiff1 u v).mpr (Or.inr ⟨?_, ?_⟩)))
            · exact Or.inl (by rw [hu])
            · exact Or.inr (by rw [hv])
          · exact Relation.EqvGen.rel u v (Or.inr (Or.inl h2))
        · rcases List.mem_cons.mp h1 with h2 | h2
          · have hv : v = pr.1 := congrArg Prod.fst h2
            have hu : u = pr.2 := congrArg Prod.snd h2
            refine Relation.EqvGen.rel u v (Or.inl ((hiff1 u v).mpr (Or.inr ⟨?_, ?_⟩)))
            · exact Or.inr (by rw [hu])
            · exact Or.inl (by rw [hv])
          · exact Relation.EqvGen.rel u v (Or.inr (Or.inr h2))

theorem finalRoots_iff (pairs : List (Nat × Nat)) (n : Nat)
    (hbound : ∀ pr ∈ pairs, pr.1 < n ∧ pr.2 < n) :
    UFInv (pairs.foldl (fun u pr => u.union pr.1 pr.2) (UnionFind.init n)).parent
          (pairs.foldl (fun u pr => u.union pr.1 pr.2) (UnionFind.init n)).rank ∧
    (pairs.foldl (fun u pr => u.union pr.1 pr.2) (UnionFind.init n)).parent.length = n ∧
    ∀ y z, (rootOf (pairs.foldl (fun u pr => u.union pr.1 pr.2) (UnionFind.init n)).parent y =
            rootOf (pairs.foldl (fun u pr => u.union pr.1 pr.2) (UnionFind.init n)).parent z ↔
      Relation.EqvGen (pairRel pairs) y z) := by
  have hlen : (UnionFind.init n).parent.length = n := by
    simp [UnionFind.init]
  obtain ⟨h1, h2, h3⟩ := processPairs_spec pairs (UnionFind.init n) (UFInv_init n)
    (by intro q hq; rw [hlen]; exact hbound q hq)
  refine ⟨h1, by rw [h2, hlen], fun y z => ?_⟩
  rw [h3 y z]
  constructor
  · apply eqvGen_le
    intro u v huv
    rcases huv with h | h
    · rw [rootOf_init, rootOf_init] at h
      rw [h]
      exact Relation.EqvGen.refl v
    · exact Relation.EqvGen.rel u v h
  · apply eqvGen_le
    intro u v huv
    exact Relation.EqvGen.rel u v (Or.inr huv)

theorem collectRoots_general :
    ∀ (l : List Nat) (uf : UnionFind) (acc : List Nat), UFInv uf.parent uf.rank →
      (l.foldl
        (fun acc2 idx =>
          let fr := acc2.1.find idx
          (fr.1, acc2.2 ++ [fr.2]))
        (uf, acc)).2 = acc ++ l.map (rootOf uf.parent) := by
  intro l
  induction l with
  | nil =>
    intro uf acc _
    simp
  | cons idx l ihl =>
    intro uf acc hInv
    obtain ⟨hf1, hf2, hf3, hf4, hf5⟩ := find_spec uf idx hInv
    rw [List.foldl_cons]
    show (l.foldl
        (fun acc2 idx =>
          let fr := acc2.1.find idx
          (fr.1, acc2.2 ++ [fr.2]))
        ((uf.find idx).1, acc ++ [(uf.find idx).2])).2 = acc ++ (idx :: l).map (rootOf uf.parent)
    rw [ihl (uf.find idx).1 (acc ++ [(uf.find idx).2]) hf4, hf1]
    rw [List.map_cons, List.append_assoc]
    congr 1
    rw [List.singleton_append]
    congr 1
    exact List.map_congr_left fun y _ => hf5 y

theorem collectRoots_snd (uf : UnionFind) (n : Nat) (hInv : UFInv uf.parent uf.rank) :
    (collectRoots uf n).2 = (List.range n).map (rootOf uf.parent) := by
  rw [collectRoots]
  rw [collectRoots_general (List.range n) uf [] hInv]
  rfl

/-! ## The lexicographic order on identifiers is a linear order -/

theorem lexLt_irrefl : ∀ l : List Char, lexLt l l = false := by
  intro l
  induction l with
  | nil => rfl
  | cons a l ih =>
    rw [lexLt]
    simp [ih]

theorem lexLt_trans :
    ∀ {a b c : List Char}, lexLt a b = true → lexLt b c = true → lexLt a c = true := by
  intro a
  induction a with
  | nil =>
    intro b c hab hbc
    cases b with
    | nil => exact absurd hab (by rw [lexLt_irrefl]; simp)
    | cons y bs =>
      cases c with
      | nil => exact absurd hbc (by rw [lexLt]; simp)
      | cons z cs => rfl
  | cons x as ih =>
    intro b c hab hbc
    cases b with
    | nil => exact absurd hab (by rw [lexLt]; simp)
    | cons y bs =>
      cases c with
      | nil => exact absurd hbc (by rw [lexLt]; simp)
      | cons z cs =>
        rw [lexLt] at hab hbc ⊢
        by_cases hxy : x.toNat < y.toNat
        · by_cases hyz : y.toNat < z.toNat
          · rw [if_pos (by omega : x.toNat < z.toNat)]
          · by_cases hzy : z.toNat < y.toNat
            · rw [if_neg hyz, if_pos hzy] at hbc
              exact absurd hbc (by simp)
            · rw [if_pos (by omega : x.toNat < z.toNat)]
        · rw [if_neg hxy] at hab
          by_cases hyx : y.toNat < x.toNat
          · rw [if_pos hyx] at hab
            exact absurd hab (by simp)
          · rw [if_neg hyx] at hab
            by_cases hyz : y.toNat < z.toNat
            · rw [if_pos (by omega : x.toNat < z.toNat)]
            · by_cases hzy : z.toNat < y.toNat
              · rw [if_neg hyz, if_pos hzy] at hbc
                exact absurd hbc (by simp)
              · rw [if_neg hyz, if_neg hzy] at hbc
                rw [if_neg (by omega : ¬ x.toNat < z.toNat),
                  if_neg (by omega : ¬ z.toNat < x.toNat)]
                exact ih hab hbc

theorem lexLt_connex :
    ∀ {a b : List Char}, lexLt a b = false → lexLt b a = false → a = b := by
  intro a
  induction a with
  | nil =>
    intro b hab _
    cases b with
    | nil => rfl
    | cons y bs => exact absurd hab (by rw [lexLt]; simp)
  | cons x as ih =>
    intro b hab hba
    cases b with
    | nil => exact absurd hba (by rw [lexLt]; simp)
    | cons y bs =>
      rw [lexLt] at hab hba
      by_cases hxy : x.toNat < y.toNat
      · rw [if_pos hxy] at hab
        exact absurd hab (by simp)
      · by_cases hyx : y.toNat < x.toNat
        · rw [if_pos hyx] at hba
          exact absurd hba (by simp)
        · rw [if_neg hxy, if_neg hyx] at hab
          rw [if_neg hyx, if_neg hxy] at hba
          have hnat : x.toNat = y.toNat := by omega
          have hchar : x = y := Char.eq_of_val_eq (UInt32.ext hnat)
          rw [hchar, ih hab hba]

theorem lexLt_false_trans {a b c : List Char}
    (hab : lexLt b a = false) (hbc : lexLt c b = false) : lexLt c a = false := by
  by_contra hca
  rw [Bool.not_eq_false] at hca
  by_cases hab2 : lexLt a b = true
  · have hcb : lexLt c b = true := lexLt_trans hca hab2
    rw [hcb] at hbc
    exact absurd hbc (by simp)
  · rw [Bool.not_eq_true] at hab2
    have heq : a = b := lexLt_connex hab2 hab
    rw [heq] at hca
    rw [hca] at hbc
    exact absurd hbc (by simp)

theorem pathLe_total (a b : String) : pathLe a b = true ∨ pathLe b a = true := by
  rw [pathLe, pathLe, pathLt, pathLt]
  by_cases h1 : lexLt b.data a.data = true
  · right
    by_cases h2 : lexLt a.data b.data = true
    · have := lexLt_trans h1 h2
      rw [lexLt_irrefl] at this
      exact absurd this (by simp)
    · rw [Bool.not_eq_true] at h2
      simp [h2]
  · left
    rw [Bool.not_eq_true] at h1
    simp [h1]

theorem pathLe_trans {a b c : String} (hab : pathLe a b = true) (hbc : pathLe b c = true) :
    pathLe a c = true := by
  rw [pathLe, pathLt] at hab hbc ⊢
  simp only [Bool.not_eq_true', Bool.not_eq_eq_eq_not, Bool.not_true] at hab hbc ⊢
  exact lexLt_false_trans hab hbc

theorem pathLt_of_le_of_ne {a b : String} (hab : pathLe a b = true) (hne : a ≠ b) :
    pathLt a b = true := by
  rw [pathLe] at hab
  rw [pathLt]
  simp only [Bool.not_eq_true', Bool.not_eq_eq_eq_not, Bool.not_true] at hab
  by_contra hlt
  rw [Bool.not_eq_true] at hlt
  exact hne (String.ext (lexLt_connex hlt hab))

theorem pathLe_refl (a : String) : pathLe a a = true := by
  rw [pathLe, pathLt, lexLt_irrefl]
  rfl

theorem pathLt_irrefl (a : String) : pathLt a a = false := by
  rw [pathLt, lexLt_irrefl]

theorem pathLt_asymm {a b : String} (h : pathLt a b = true) : pathLt b a = false := by
  by_contra hba
  rw [Bool.not_eq_false] at hba
  have := lexLt_trans h hba
  rw [lexLt_irrefl] at this
  exact absurd this (by simp)

/-! ## Properties of the load phase -/

theorem loadRows_perm (db : Store) :
    (loadRows db).Perm (db.filter fun ph => ph.phash.isSome) :=
  List.perm_insertionSort _ _

theorem loadRows_sorted (db : Store) :
    List.Sorted (fun a b : PhotoRow => pathLe a.path b.path = true) (loadRows db) := by
  haveI htot : IsTotal PhotoRow (fun a b => pathLe a.path b.path = true) :=
    ⟨fun a b => pathLe_total a.path b.path⟩
  haveI htrans : IsTrans PhotoRow (fun a b => pathLe a.path b.path = true) :=
    ⟨fun a b c => pathLe_trans⟩
  exact List.sorted_insertionSort _ _

theorem loadRows_nodup_paths {db : Store} (hnd : (db.map PhotoRow.path).Nodup) :
    ((loadRows db).map PhotoRow.path).Nodup := by
  have hsub : ((db.filter fun ph => ph.phash.isSome).map PhotoRow.path).Sublist
      (db.map PhotoRow.path) :=
    List.Sublist.map _ (List.filter_sublist db)
  have hnd2 : ((db.filter fun ph => ph.phash.isSome).map PhotoRow.path).Nodup :=
    List.Nodup.sublist hsub hnd
  exact List.Perm.nodup (List.Perm.map PhotoRow.path (loadRows_perm db)).symm hnd2

theorem loadRows_mem {db : Store} {ph : PhotoRow} :
    ph ∈ loadRows db ↔ ph ∈ db ∧ ph.phash.isSome := by
  rw [List.Perm.mem_iff (loadRows_perm db), List.mem_filter]

theorem loadRows_strict {db : Store} (hnd : (db.map PhotoRow.path).Nodup) :
    ∀ i j, i < j → ∀ (hj : j < (loadRows db).length),
      pathLt (((loadRows db).map fun r => r.path).getD i "")
             (((loadRows db).map fun r => r.path).getD j "") = true := by
  intro i j hij hj
  have hi : i < (loadRows db).length := by omega
  have hle : pathLe ((loadRows db)[i]).path ((loadRows db)[j]).path = true := by
    have := (List.pairwise_iff_getElem).mp (loadRows_sorted db) i j hi hj hij
    exact this
  have hnd2 := loadRows_nodup_paths hnd
  have hne : ((loadRows db)[i]).path ≠ ((loadRows db)[j]).path := by
    have hpair := (List.pairwise_iff_getElem).mp hnd2 i j
      (by simpa using hi) (by simpa using hj) hij
    simpa using hpair
  have hgi : (((loadRows db).map fun r => r.path).getD i "") = ((loadRows db)[i]).path := by
    rw [List.getD_eq_getElem _ _ (by simpa using hi), List.getElem_map]
  have hgj : (((loadRows db).map fun r => r.path).getD j "") = ((loadRows db)[j]).path := by
    rw [List.getD_eq_getElem _ _ (by simpa using hj), List.getElem_map]
  rw [hgi, hgj]
  exact pathLt_of_le_of_ne hle hne

theorem parseHashes_length :
    ∀ {rows : List PhotoRow} {hs : List Nat},
      parseHashes rows = .ok hs → hs.length = rows.length := by
  intro rows
  induction rows with
  | nil =>
    intro hs h
    rw [parseHashes] at h
    injection h with h
    rw [← h]
    rfl
  | cons r rs ih =>
    intro hs h
    rw [parseHashes] at h
    cases hhex : _hex_to_uint64 (r.phash.getD "") with
    | none =>
      rw [hhex] at h
      exact absurd h (by simp)
    | some v =>
      rw [hhex] at h
      have h' : (if 2 ^ 64 ≤ v then Except.error DetectErr.dataError
          else match parseHashes rs with
            | Except.error e => Except.error e
            | Except.ok vs => Except.ok (v :: vs)) = Except.ok hs := h
      by_cases hv : 2 ^ 64 ≤ v
      · rw [if_pos hv] at h'
        exact absurd h' (by simp)
      · rw [if_neg hv] at h'
        cases hrec : parseHashes rs with
        | error e =>
          rw [hrec] at h'
          exact absurd h' (by simp)
        | ok vs =>
          rw [hrec] at h'
          injection h' with h'
          rw [← h', List.length_cons, ih hrec, List.length_cons]

theorem parseHashes_lt :
    ∀ {rows : List PhotoRow} {hs : List Nat},
      parseHashes rows = .ok hs → ∀ v ∈ hs, v < 2 ^ 64 := by
  intro rows
  induction rows with
  | nil =>
    intro hs h
    rw [parseHashes] at h
    injection h with h
    rw [← h]
    intro v hv
    exact absurd hv (List.not_mem_nil v)
  | cons r rs ih =>
    intro hs h
    rw [parseHashes] at h
    cases hhex : _hex_to_uint64 (r.phash.getD "") with
    | none =>
      rw [hhex] at h
      exact absurd h (by simp)
    | some v =>
      rw [hhex] at h
      have h' : (if 2 ^ 64 ≤ v then Except.error DetectErr.dataError
          else match parseHashes rs with
            | Except.error e => Except.error e
            | Except.ok vs => Except.ok (v :: vs)) = Except.ok hs := h
      by_cases hv : 2 ^ 64 ≤ v
      · rw [if_pos hv] at h'
        exact absurd h' (by simp)
      · rw [if_neg hv] at h'
        cases hrec : parseHashes rs with
        | error e =>
          rw [hrec] at h'
          exact absurd h' (by simp)
        | ok vs =>
          rw [hrec] at h'
          injection h' with h'
          rw [← h']
          intro w hw
          rcases List.mem_cons.mp hw with h2 | h2
          · omega
          · exact ih hrec w h2

theorem parseHashes_ok_forall :
    ∀ {rows : List PhotoRow} {hs : List Nat},
      parseHashes rows = .ok hs →
      ∀ r ∈ rows, ∃ v, _hex_to_uint64 (r.phash.getD "") = some v ∧ v < 2 ^ 64 := by
  intro rows
  induction rows with
  | nil =>
    intro hs _ r hr
    exact absurd hr (List.not_mem_nil r)
  | cons r0 rs ih =>
    intro hs h
    rw [parseHashes] at h
    cases hhex : _hex_to_uint64 (r0.phash.getD "") with
    | none =>
      rw [hhex] at h
      exact absurd h (by simp)
    | some v =>
      rw [hhex] at h
      have h' : (if 2 ^ 64 ≤ v then Except.error DetectErr.dataError
          else match parseHashes rs with
            | Except.error e => Except.error e
            | Except.ok vs => Except.ok (v :: vs)) = Except.ok hs := h
      by_cases hv : 2 ^ 64 ≤ v
      · rw [if_pos hv] at h'
        exact absurd h' (by simp)
      · rw [if_neg hv] at h'
        cases hrec : parseHashes rs with
        | error e =>
          rw [hrec] at h'
          exact absurd h' (by simp)
        | ok vs =>
          intro r hr
          rcases List.mem_cons.mp hr with h2 | h2
          · exact ⟨v, by rw [h2]; exact hhex, by omega⟩
          · exact ih hrec r h2

theorem parseHashes_error_of_bad :
    ∀ {rows : List PhotoRow} {r : PhotoRow}, r ∈ rows →
      (∀ v, _hex_to_uint64 (r.phash.getD "") = some v → 2 ^ 64 ≤ v) →
      parseHashes rows = .error DetectErr.dataError := by
  intro rows
  induction rows with
  | nil =>
    intro r hr _
    exact absurd hr (List.not_mem_nil r)
  | cons r0 rs ih =>
    intro r hr hbad
    rcases List.mem_cons.mp hr with h2 | h2
    · rw [parseHashes]
      cases hhex : _hex_to_uint64 (r0.phash.getD "") with
      | none => rfl
      | some v =>
        have hge : 2 ^ 64 ≤ v := hbad v (by rw [h2]; exact hhex)
        show (if 2 ^ 64 ≤ v then Except.error DetectErr.dataError
          else match parseHashes rs with
            | Except.error e => Except.error e
            | Except.ok vs => Except.ok (v :: vs)) = Except.error DetectErr.dataError
        rw [if_pos hge]
    · rw [parseHashes]
      cases hhex : _hex_to_uint64 (r0.phash.getD "") with
      | none => rfl
      | some v =>
        show (if 2 ^ 64 ≤ v then Except.error DetectErr.dataError
          else match parseHashes rs with
            | Except.error e => Except.error e
            | Except.ok vs => Except.ok (v :: vs)) = Except.error DetectErr.dataError
        rw [ih h2 hbad]
        by_cases hv : 2 ^ 64 ≤ v
        · rw [if_pos hv]
        · rw [if_neg hv]

/-! ## Groups: members, retained roots, and the lead choice -/

theorem mem_membersOf {roots : List Nat} {r i : Nat} :
    i ∈ membersOf roots r ↔ i < roots.length ∧ roots.getD i 0 = r := by
  rw [membersOf, List.mem_filter, List.mem_range]
  simp only [beq_iff_eq, decide_eq_true_eq]

theorem membersOf_pairwise (roots : List Nat) (r : Nat) :
    List.Pairwise (· < ·) (membersOf roots r) :=
  List.Pairwise.sublist (List.filter_sublist _) (List.pairwise_lt_range _)

theorem mem_dupRootsSorted {roots : List Nat} {r : Nat} :
    r ∈ dupRootsSorted roots ↔ r < roots.length ∧ 2 ≤ (membersOf roots r).length := by
  rw [dupRootsSorted, List.mem_filter, List.mem_range]
  simp only [decide_eq_true_eq]

theorem dupRootsSorted_pairwise (roots : List Nat) :
    List.Pairwise (· < ·) (dupRootsSorted roots) :=
  List.Pairwise.sublist (List.filter_sublist _) (List.pairwise_lt_range _)

theorem dupRootsSorted_nodup (roots : List Nat) : (dupRootsSorted roots).Nodup :=
  List.Nodup.filter _ (List.nodup_range _)

theorem maxFold_spec (aggs : List Int) :
    ∀ (ms : List Nat) (b : Nat), List.Pairwise (· < ·) ms → (∀ i ∈ ms, b < i) →
      ∀ res,
        ms.foldl (fun best idx =>
          if aggs.getD best 0 < aggs.getD idx 0 then idx else best) b = res →
        (res = b ∨ res ∈ ms) ∧
        (∀ i, (i = b ∨ i ∈ ms) → aggs.getD i 0 ≤ aggs.getD res 0) ∧
        (res ≠ b → aggs.getD b 0 < aggs.getD res 0) ∧
        (∀ i, (i = b ∨ i ∈ ms) → aggs.getD i 0 = aggs.getD res 0 → res ≤ i) := by
  intro ms
  induction ms with
  | nil =>
    intro b _ _ res hres
    rw [List.foldl_nil] at hres
    subst hres
    refine ⟨Or.inl rfl, ?_, ?_, ?_⟩
    · rintro i (rfl | hi)
      · exact le_refl _
      · exact absurd hi (List.not_mem_nil i)
    · intro h
      exact absurd rfl h
    · rintro i (rfl | hi) _
      · exact le_refl _
      · exact absurd hi (List.not_mem_nil i)
  | cons x ms ih =>
    intro b hpair hblt res hres
    rw [List.foldl_cons] at hres
    obtain ⟨hxms, hpair'⟩ := List.pairwise_cons.mp hpair
    by_cases hbx : aggs.getD b 0 < aggs.getD x 0
    · rw [if_pos hbx] at hres
      obtain ⟨hA, hB, hC, hD⟩ := ih x hpair' hxms res hres
      refine ⟨?_, ?_, ?_, ?_⟩
      · rcases hA with h | h
        · right
          rw [h]
          exact List.mem_cons_self x ms
        · right
          exact List.mem_cons_of_mem _ h
      · rintro i (rfl | hi)
        · exact le_trans (le_of_lt hbx) (hB x (Or.inl rfl))
        · rcases List.mem_cons.mp hi with h2 | h2
          · rw [h2]
            exact hB x (Or.inl rfl)
          · exact hB i (Or.inr h2)
      · intro _
        exact lt_of_lt_of_le hbx (hB x (Or.inl rfl))
      · rintro i (rfl | hi) htie
        · exfalso
          have := hB x (Or.inl rfl)
          omega
        · rcases List.mem_cons.mp hi with h2 | h2
          · rw [h2] at htie ⊢
            exact hD x (Or.inl rfl) htie
          · exact hD i (Or.inr h2) htie
    · rw [if_neg hbx] at hres
      have hblt' : ∀ i ∈ ms, b < i := fun i hi => hblt i (List.mem_cons_of_mem _ hi)
      obtain ⟨hA, hB, hC, hD⟩ := ih b hpair' hblt' res hres
      refine ⟨?_, ?_, ?_, ?_⟩
      · rcases hA with h | h
        · exact Or.inl h
        · exact Or.inr (List.mem_cons_of_mem _ h)
      · rintro i (rfl | hi)
        · exact hB i (Or.inl rfl)
        · rcases List.mem_cons.mp hi with h2 | h2
          · rw [h2]
            exact le_trans (le_of_not_lt hbx) (hB b (Or.inl rfl))
          · exact hB i (Or.inr h2)
      · exact hC
      · rintro i (rfl | hi) htie
        · exact hD i (Or.inl rfl) htie
        · rcases List.mem_cons.mp hi with h2 | h2
          · subst h2
            rcases hA with h3 | h3
            · rw [h3]
              exact le_of_lt (hblt i (List.mem_cons_self i ms))
            · exfalso
              have hresb : res ≠ b := by
                intro hrb
                rw [hrb] at h3
                exact absurd (hblt' b h3) (lt_irrefl b)
              have hstrict := hC hresb
              have hxb : aggs.getD i 0 ≤ aggs.getD b 0 := le_of_not_lt hbx
              omega
          · exact hD i (Or.inr h2) htie

theorem maxByAgg_spec (aggs : List Int) (m : List Nat)
    (hm : m ≠ []) (hpair : List.Pairwise (· < ·) m) :
    maxByAgg aggs m ∈ m ∧
    (∀ i ∈ m, aggs.getD i 0 ≤ aggs.getD (maxByAgg aggs m) 0) ∧
    (∀ i ∈ m, aggs.getD i 0 = aggs.getD (maxByAgg aggs m) 0 → maxByAgg aggs m ≤ i) := by
  cases m with
  | nil => exact absurd rfl hm
  | cons x ms =>
    obtain ⟨hxms, hpair'⟩ := List.pairwise_cons.mp hpair
    obtain ⟨hA, hB, hC, hD⟩ := maxFold_spec aggs ms x hpair' hxms (maxByAgg aggs (x :: ms)) rfl
    refine ⟨?_, ?_, ?_⟩
    · rcases hA with h | h
      · rw [h]
        exact List.mem_cons_self x ms
      · exact List.mem_cons_of_mem _ h
    · intro i hi
      rcases List.mem_cons.mp hi with h2 | h2
      · exact hB i (Or.inl h2)
      · exact hB i (Or.inr h2)
    · intro i hi htie
      rcases List.mem_cons.mp hi with h2 | h2
      · exact hD i (Or.inl h2) htie
      · exact hD i (Or.inr h2) htie

/-! ## The write phase acts row-wise -/

theorem membersOf_nodup (roots : List Nat) (r : Nat) : (membersOf roots r).Nodup :=
  List.Nodup.filter _ (List.nodup_range _)

theorem markGroup_map (paths : List String) (g best : Nat) :
    ∀ (m : List Nat) (db : Store),
      markGroup db paths g best m = db.map (markPhotoGroup paths g best m) := by
  intro m
  induction m with
  | nil =>
    intro db
    have hmap : db.map (markPhotoGroup paths g best []) = db.map id :=
      List.map_congr_left fun ph _ => rfl
    rw [markGroup, List.foldl_nil, hmap, List.map_id]
  | cons idx m ih =>
    intro db
    rw [markGroup, List.foldl_cons, ← markGroup,
      ih (db.map (markPhotoStep paths g best idx)), List.map_map]
    exact List.map_congr_left fun ph _ => rfl

theorem writeFold_map (paths : List String) (aggs : List Int) (roots : List Nat) :
    ∀ (L : List Nat) (db : Store) (g0 : Nat),
      (L.foldl (fun acc root =>
        (markGroup acc.1 paths acc.2 (maxByAgg aggs (membersOf roots root))
          (membersOf roots root), acc.2 + 1)) (db, g0)).1
      = db.map fun ph =>
          (L.foldl (fun acc root =>
            (markPhotoGroup paths acc.2 (maxByAgg aggs (membersOf roots root))
              (membersOf roots root) acc.1, acc.2 + 1)) (ph, g0)).1 := by
  intro L
  induction L with
  | nil =>
    intro db g0
    have hmap : (db.map fun ph => ph) = db.map id := List.map_congr_left fun ph _ => rfl
    rw [List.foldl_nil]
    show db = db.map fun ph => ph
    rw [hmap, List.map_id]
  | cons r L ih =>
    intro db g0
    rw [List.foldl_cons]
    show (L.foldl _ (markGroup db paths g0 (maxByAgg aggs (membersOf roots r))
      (membersOf roots r), g0 + 1)).1 = _
    rw [markGroup_map, ih _ (g0 + 1), List.map_map]
    exact List.map_congr_left fun ph _ => rfl

theorem writeGroups_eq (db : Store) (paths : List String) (aggs : List Int)
    (roots : List Nat) :
    writeGroups db paths aggs roots = db.map (writePhoto paths aggs roots 1) :=
  writeFold_map paths aggs roots (dupRootsSorted roots) db 1

theorem markPhotoStep_path (paths : List String) (g best idx : Nat) (ph : PhotoRow) :
    (markPhotoStep paths g best idx ph).path = ph.path := by
  rw [markPhotoStep]
  split <;> rfl

theorem markPhotoGroup_path (paths : List String) (g best : Nat) :
    ∀ (m : List Nat) (ph : PhotoRow), (markPhotoGroup paths g best m ph).path = ph.path := by
  intro m
  induction m with
  | nil => intro ph; rfl
  | cons idx m ih =>
    intro ph
    rw [markPhotoGroup, List.foldl_cons, ← markPhotoGroup, ih, markPhotoStep_path]

theorem writePhotoFold_path (paths : List String) (aggs : List Int) (roots : List Nat) :
    ∀ (L : List Nat) (ph : PhotoRow) (g0 : Nat),
      ((L.foldl (fun acc root =>
        (markPhotoGroup paths acc.2 (maxByAgg aggs (membersOf roots root))
          (membersOf roots root) acc.1, acc.2 + 1)) (ph, g0)).1).path = ph.path := by
  intro L
  induction L with
  | nil => intro ph g0; rfl
  | cons r L ih =>
    intro ph g0
    rw [List.foldl_cons]
    show ((L.foldl _ (markPhotoGroup paths g0 (maxByAgg aggs (membersOf roots r))
      (membersOf roots r) ph, g0 + 1)).1).path = ph.path
    rw [ih _ (g0 + 1), markPhotoGroup_path]

theorem writePhoto_path (paths : List String) (aggs : List Int) (roots : List Nat)
    (g0 : Nat) (ph : PhotoRow) : (writePhoto paths aggs roots g0 ph).path = ph.path :=
  writePhotoFold_path paths aggs roots (dupRootsSorted roots) ph g0

theorem photoOf_map {f : PhotoRow → PhotoRow} (hf : ∀ ph, (f ph).path = ph.path) :
    ∀ (db : Store) (s : String), photoOf (db.map f) s = (photoOf db s).map f := by
  intro db
  induction db with
  | nil => intro s; rfl
  | cons ph db ih =>
    intro s
    rw [List.map_cons, photoOf, photoOf, List.find?_cons, List.find?_cons]
    have hfp : ((f ph).path == s) = (ph.path == s) := by rw [hf ph]
    rw [hfp]
    by_cases hp : ph.path == s
    · rw [hp]
      rfl
    · rw [Bool.not_eq_true] at hp
      rw [hp]
      exact ih s

theorem markPhotoGroup_id (paths : List String) (g best : Nat) :
    ∀ (m : List Nat) (ph : PhotoRow),
      (∀ idx ∈ m, ph.path ≠ paths.getD idx "") →
      markPhotoGroup paths g best m ph = ph := by
  intro m
  induction m with
  | nil => intro ph _; rfl
  | cons idx m ih =>
    intro ph h
    rw [markPhotoGroup, List.foldl_cons, ← markPhotoGroup, markPhotoStep,
      if_neg (h idx (List.mem_cons_self idx m))]
    exact ih ph fun j hj => h j (List.mem_cons_of_mem _ hj)

theorem markPhotoGroup_hit (paths : List String) (g best i0 : Nat) :
    ∀ (m : List Nat) (ph : PhotoRow), m.Nodup → i0 ∈ m →
      (∀ idx ∈ m, ph.path = paths.getD idx "" → idx = i0) →
      ph.path = paths.getD i0 "" →
      markPhotoGroup paths g best m ph =
        { ph with duplicate_group_id := some g, is_duplicate_lead := i0 == best } := by
  intro m
  induction m with
  | nil =>
    intro ph _ hmem _ _
    exact absurd hmem (List.not_mem_nil i0)
  | cons idx m ih =>
    intro ph hnd hmem huniq hpath
    obtain ⟨hhead, htail⟩ := List.nodup_cons.mp hnd
    rw [markPhotoGroup, List.foldl_cons, ← markPhotoGroup]
    by_cases hidx : idx = i0
    · subst hidx
      rw [markPhotoStep, if_pos hpath]
      apply markPhotoGroup_id
      intro j hj heq
      have hj0 : j = idx := huniq j (List.mem_cons_of_mem _ hj) heq
      rw [hj0] at hj
      exact hhead hj
    · rw [markPhotoStep, if_neg (fun heq => hidx ((huniq idx (List.mem_cons_self idx m) heq).symm ▸ rfl))]
      · exact ih ph htail
          (by rcases List.mem_cons.mp hmem with h | h
              · exact absurd h.symm hidx
              · exact h)
          (fun j hj heq => huniq j (List.mem_cons_of_mem _ hj) heq) hpath

theorem writeFoldPhoto_miss (paths : List String) (aggs : List Int) (roots : List Nat) :
    ∀ (L : List Nat) (ph : PhotoRow) (g0 : Nat),
      (∀ i, i < roots.length → roots.getD i 0 ∈ L → ph.path ≠ paths.getD i "") →
      (L.foldl (fun acc root =>
        (markPhotoGroup paths acc.2 (maxByAgg aggs (membersOf roots root))
          (membersOf roots root) acc.1, acc.2 + 1)) (ph, g0)).1 = ph := by
  intro L
  induction L with
  | nil => intro ph g0 _; rfl
  | cons r L ih =>
    intro ph g0 h
    rw [List.foldl_cons]
    have hmg : markPhotoGroup paths g0 (maxByAgg aggs (membersOf roots r))
        (membersOf roots r) ph = ph := by
      apply markPhotoGroup_id
      intro idx hidx
      obtain ⟨hlt, hroot⟩ := mem_membersOf.mp hidx
      exact h idx hlt (by rw [hroot]; exact List.mem_cons_self r L)
    rw [hmg]
    exact ih ph (g0 + 1) fun i hi hin => h i hi (List.mem_cons_of_mem _ hin)

theorem writeFoldPhoto_hit (paths : List String) (aggs : List Int) (roots : List Nat) :
    ∀ (L : List Nat) (ph : PhotoRow) (g0 r0 i0 : Nat),
      L.Nodup → r0 ∈ L →
      i0 < roots.length → roots.getD i0 0 = r0 →
      (∀ i, i < roots.length → ph.path = paths.getD i "" → i = i0) →
      ph.path = paths.getD i0 "" →
      (L.foldl (fun acc root =>
        (markPhotoGroup paths acc.2 (maxByAgg aggs (membersOf roots root))
          (membersOf roots root) acc.1, acc.2 + 1)) (ph, g0)).1 =
      { ph with duplicate_group_id := some (g0 + L.findIdx fun x => x == r0),
                is_duplicate_lead := i0 == maxByAgg aggs (membersOf roots r0) } := by
  intro L
  induction L with
  | nil =>
    intro ph g0 r0 i0 _ hr0 _ _ _ _
    exact absurd hr0 (List.not_mem_nil r0)
  | cons r L ih =>
    intro ph g0 r0 i0 hnd hr0 hi0lt hroot huniq hpath
    obtain ⟨hhead, htail⟩ := List.nodup_cons.mp hnd
    rw [List.foldl_cons]
    by_cases hrr : r = r0
    · subst hrr
      have hmg := markPhotoGroup_hit paths g0 (maxByAgg aggs (membersOf roots r)) i0
        (membersOf roots r) ph (membersOf_nodup roots r)
        (mem_membersOf.mpr ⟨hi0lt, hroot⟩)
        (fun idx hidx heq => huniq idx (mem_membersOf.mp hidx).1 heq) hpath
      rw [hmg]
      have hmiss := writeFoldPhoto_miss paths aggs roots L
        { ph with duplicate_group_id := some g0,
                  is_duplicate_lead := i0 == maxByAgg aggs (membersOf roots r) }
        (g0 + 1) ?hnomatch
      case hnomatch =>
        intro i hi hin heq
        have hieq : i = i0 := huniq i hi heq
        rw [hieq, hroot] at hin
        exact hhead hin
      rw [hmiss]
      have hfind : (List.findIdx (fun x => x == r) (r :: L)) = 0 := by
        rw [List.findIdx_cons]
        simp
      rw [hfind]
      rfl
    · have hmg : markPhotoGroup paths g0 (maxByAgg aggs (membersOf roots r))
          (membersOf roots r) ph = ph := by
        apply markPhotoGroup_id
        intro idx hidx heq
        obtain ⟨hlt, hroot2⟩ := mem_membersOf.mp hidx
        have hieq : idx = i0 := huniq idx hlt heq
        rw [hieq, hroot] at hroot2
        exact hrr hroot2.symm
      rw [hmg]
      have hr0L : r0 ∈ L := by
        rcases List.mem_cons.mp hr0 with h | h
        · exact absurd h.symm hrr
        · exact h
      rw [ih ph (g0 + 1) r0 i0 htail hr0L hi0lt hroot huniq hpath]
      have hfind : (List.findIdx (fun x => x == r0) (r :: L)) =
          (List.findIdx (fun x => x == r0) L) + 1 := by
        rw [List.findIdx_cons]
        have : (r == r0) = false := by
          simp only [beq_eq_false_iff_ne, ne_eq]
          exact hrr
        rw [this]
        rfl
      rw [hfind]
      have harith : g0 + 1 + List.findIdx (fun x => x == r0) L =
          g0 + (List.findIdx (fun x => x == r0) L + 1) := by omega
      rw [harith]

/-! ## Unfolding `detect_duplicates` by phase -/

theorem detect_eq_empty {db : Store} {setting : Option Int}
    (h : (loadRows db).isEmpty = true) :
    detect_duplicates db setting = ⟨db, none, none, none⟩ := by
  rw [detect_duplicates, if_pos h]

theorem detect_eq_err {db : Store} {setting : Option Int} {e : DetectErr}
    (hrows : (loadRows db).isEmpty = false)
    (herr : parseHashes (loadRows db) = .error e) :
    detect_duplicates db setting = ⟨db, some e, none, none⟩ := by
  rw [detect_duplicates, if_neg (by rw [hrows]; simp), herr]

theorem detect_eq_ok {db : Store} {setting : Option Int} {hashes : List Nat}
    (hrows : (loadRows db).isEmpty = false)
    (hok : parseHashes (loadRows db) = .ok hashes) :
    detect_duplicates db setting =
      if (dupRootsSorted (detRoots db setting hashes)).isEmpty
      then ⟨clearAll db, none, none, none⟩
      else
        ⟨writeGroups (clearAll db) (detPaths db) (detAggs db)
            (detRoots db setting hashes),
         none,
         some ⟨(dupRootsSorted (detRoots db setting hashes)).length,
               totalMembers (detRoots db setting hashes),
               totalMembers (detRoots db setting hashes) -
                 (dupRootsSorted (detRoots db setting hashes)).length⟩,
         none⟩ := by
  rw [detect_duplicates, if_neg (by rw [hrows]; simp), hok]
  rfl

theorem detRoots_spec {db : Store} {setting : Option Int} {hashes : List Nat}
    (hok : parseHashes (loadRows db) = .ok hashes) :
    (detRoots db setting hashes).length = (detPaths db).length ∧
    (∀ i, i < (detPaths db).length →
      (detRoots db setting hashes).getD i 0 < (detPaths db).length) ∧
    (∀ i, i < (detPaths db).length →
      (detRoots db setting hashes).getD ((detRoots db setting hashes).getD i 0) 0
        = (detRoots db setting hashes).getD i 0) ∧
    (∀ i j, i < (detPaths db).length → j < (detPaths db).length →
      ((detRoots db setting hashes).getD i 0 = (detRoots db setting hashes).getD j 0 ↔
        Relation.EqvGen (pairRel (matchedPairs hashes (detMaxd setting))) i j)) := by
  have hn : hashes.length = (detPaths db).length := by
    rw [parseHashes_length hok, detPaths, List.length_map]
  obtain ⟨hInv, hlen, hiff⟩ :=
    finalRoots_iff (matchedPairs hashes (detMaxd setting)) (detPaths db).length
      (by
        intro pr hpr
        have hb := matchedPairs_lt hashes (detMaxd setting) pr hpr
        omega)
  rw [show (matchedPairs hashes (detMaxd setting)).foldl (fun u pr => u.union pr.1 pr.2)
      (UnionFind.init (detPaths db).length) = detUF db setting hashes from rfl]
    at hInv hlen hiff
  have hsnd := collectRoots_snd (detUF db setting hashes) (detPaths db).length hInv
  have hget : ∀ i, i < (detPaths db).length →
      (detRoots db setting hashes).getD i 0 = rootOf (detUF db setting hashes).parent i := by
    intro i hi
    rw [detRoots, hsnd, List.getD_eq_getElem _ _ (by simpa using hi), List.getElem_map,
      List.getElem_range]
  refine ⟨?_, ?_, ?_, ?_⟩
  · rw [detRoots, hsnd, List.length_map, List.length_range]
  · intro i hi
    rw [hget i hi]
    have := rootOf_lt hInv (by rw [hlen]; exact hi)
    omega
  · intro i hi
    have hri : (detRoots db setting hashes).getD i 0 < (detPaths db).length := by
      rw [hget i hi]
      have := rootOf_lt hInv (by rw [hlen]; exact hi)
      omega
    rw [hget i hi, hget _ (by rw [← hget i hi]; exact hri)]
    rw [← hget i hi, hget i hi]
    exact rootOf_rootOf hInv i
  · intro i j hi hj
    rw [hget i hi, hget j hj]
    exact hiff i j

theorem detect_store_pointwise {db : Store} {setting : Option Int} {hashes : List Nat}
    (hrows : (loadRows db).isEmpty = false)
    (hok : parseHashes (loadRows db) = .ok hashes)
    (hdups : (dupRootsSorted (detRoots db setting hashes)).isEmpty = false) :
    (detect_duplicates db setting).store =
      db.map fun ph =>
        writePhoto (detPaths db) (detAggs db) (detRoots db setting hashes) 1
          (clearPhoto ph) := by
  rw [detect_eq_ok hrows hok, if_neg (by rw [hdups]; simp)]
  show writeGroups (clearAll db) (detPaths db) (detAggs db)
      (detRoots db setting hashes) = _
  rw [writeGroups_eq, clearAll, List.map_map]
  exact List.map_congr_left fun ph _ => rfl

theorem photoOf_detect {db : Store} {setting : Option Int} {hashes : List Nat}
    (hrows : (loadRows db).isEmpty = false)
    (hok : parseHashes (loadRows db) = .ok hashes)
    (hdups : (dupRootsSorted (detRoots db setting hashes)).isEmpty = false)
    (s : String) :
    photoOf (detect_duplicates db setting).store s =
      (photoOf db s).map fun ph =>
        writePhoto (detPaths db) (detAggs db) (detRoots db setting hashes) 1
          (clearPhoto ph) := by
  rw [detect_store_pointwise hrows hok hdups]
  exact photoOf_map (fun ph => by rw [writePhoto_path]; rfl) db s

theorem photoOf_eq_some_of_nodup :
    ∀ {db : Store}, (db.map PhotoRow.path).Nodup →
      ∀ {ph : PhotoRow}, ph ∈ db → photoOf db ph.path = some ph := by
  intro db
  induction db with
  | nil =>
    intro _ ph hmem
    exact absurd hmem (List.not_mem_nil ph)
  | cons a db ih =>
    intro hnd ph hmem
    rw [List.map_cons, List.nodup_cons] at hnd
    rw [photoOf, List.find?_cons]
    rcases List.mem_cons.mp hmem with h | h
    · subst h
      have hbeq : (ph.path == ph.path) = true := by simp
      rw [hbeq]
    · have hne : (a.path == ph.path) = false := by
        simp only [beq_eq_false_iff_ne, ne_eq]
        intro heq
        exact hnd.1 (heq ▸ List.mem_map_of_mem PhotoRow.path h)
      rw [hne]
      exact ih hnd.2 h

theorem photoOf_some {db : Store} {s : String} {ph : PhotoRow}
    (h : photoOf db s = some ph) : ph ∈ db ∧ ph.path = s := by
  constructor
  · exact List.mem_of_find?_eq_some h
  · have := List.find?_some h
    simpa using this

theorem detPaths_length (db : Store) : (detPaths db).length = (loadRows db).length := by
  rw [detPaths, List.length_map]

theorem detPaths_getD {db : Store} {i : Nat} (hi : i < (loadRows db).length) :
    (detPaths db).getD i "" = ((loadRows db).get ⟨i, hi⟩).path := by
  rw [detPaths, List.getD_eq_getElem _ _ (by simpa using hi), List.getElem_map]
  rfl

theorem detPaths_nodup {db : Store} (hnd : (db.map PhotoRow.path).Nodup) :
    (detPaths db).Nodup :=
  loadRows_nodup_paths hnd

theorem detPaths_getD_inj {db : Store} (hnd : (db.map PhotoRow.path).Nodup)
    {i j : Nat} (hi : i < (detPaths db).length) (hj : j < (detPaths db).length)
    (heq : (detPaths db).getD i "" = (detPaths db).getD j "") : i = j := by
  have hnd2 := detPaths_nodup hnd
  rw [List.getD_eq_getElem _ _ hi, List.getD_eq_getElem _ _ hj] at heq
  by_contra hne
  rw [List.Nodup, List.pairwise_iff_getElem] at hnd2
  rcases Nat.lt_or_ge i j with h | h
  · exact hnd2 i j hi hj h heq
  · have hj2 : j < i := by omega
    exact hnd2 j i hj hi hj2 heq.symm

theorem detect_photo_hit {db : Store} {setting : Option Int} {hashes : List Nat}
    (hnd : (db.map PhotoRow.path).Nodup)
    (hrows : (loadRows db).isEmpty = false)
    (hok : parseHashes (loadRows db) = .ok hashes)
    (hdups : (dupRootsSorted (detRoots db setting hashes)).isEmpty = false)
    {i0 : Nat} (hi0 : i0 < (loadRows db).length)
    (hret : (detRoots db setting hashes).getD i0 0 ∈
      dupRootsSorted (detRoots db setting hashes)) :
    photoOf (detect_duplicates db setting).store
        (((loadRows db).get ⟨i0, hi0⟩).path) =
      some { (loadRows db).get ⟨i0, hi0⟩ with
             duplicate_group_id := some (1 + (dupRootsSorted
               (detRoots db setting hashes)).findIdx
                 (fun x => x == (detRoots db setting hashes).getD i0 0)),
             is_duplicate_lead :=
               i0 == maxByAgg (detAggs db) (membersOf (detRoots db setting hashes)
                 ((detRoots db setting hashes).getD i0 0)) } := by
  obtain ⟨hrlen, hrlt, hidem, hiff⟩ := @detRoots_spec db setting hashes hok
  have hi0' : i0 < (detPaths db).length := by rw [detPaths_length]; exact hi0
  have hmem : (loadRows db).get ⟨i0, hi0⟩ ∈ db :=
    (loadRows_mem.mp (List.get_mem (loadRows db) i0 hi0)).1
  rw [photoOf_detect hrows hok hdups, photoOf_eq_some_of_nodup hnd hmem,
    Option.map_some']
  congr 1
  have hhit := writeFoldPhoto_hit (detPaths db) (detAggs db)
    (detRoots db setting hashes) (dupRootsSorted (detRoots db setting hashes))
    (clearPhoto ((loadRows db).get ⟨i0, hi0⟩)) 1
    ((detRoots db setting hashes).getD i0 0) i0
    (dupRootsSorted_nodup _) hret (by rw [hrlen]; exact hi0') rfl
    (by
      intro i hi heq
      have hi' : i < (detPaths db).length := by rw [← hrlen]; exact hi
      refine detPaths_getD_inj hnd hi' hi0' ?_
      rw [← heq, detPaths_getD hi0]
      rfl)
    (by rw [detPaths_getD hi0]; rfl)
  rw [writePhoto, hhit]
  rfl

theorem detect_photo_nogroup {db : Store} {setting : Option Int} {hashes : List Nat}
    (hnd : (db.map PhotoRow.path).Nodup)
    (hrows : (loadRows db).isEmpty = false)
    (hok : parseHashes (loadRows db) = .ok hashes)
    (hdups : (dupRootsSorted (detRoots db setting hashes)).isEmpty = false)
    {ph : PhotoRow} (hmem : ph ∈ db)
    (h : ∀ i, i < (loadRows db).length →
        (detRoots db setting hashes).getD i 0 ∈
          dupRootsSorted (detRoots db setting hashes) →
        ph.path ≠ (detPaths db).getD i "") :
    photoOf (detect_duplicates db setting).store ph.path = some (clearPhoto ph) := by
  obtain ⟨hrlen, -, -, -⟩ := @detRoots_spec db setting hashes hok
  rw [photoOf_detect hrows hok hdups, photoOf_eq_some_of_nodup hnd hmem,
    Option.map_some']
  congr 1
  rw [writePhoto, writeFoldPhoto_miss]
  intro i hi hin
  have hi' : i < (loadRows db).length := by
    rw [hrlen, detPaths_length] at hi
    exact hi
  exact h i hi' hin

theorem two_le_length_of_mem_ne {α : Type} {l : List α} {a b : α}
    (ha : a ∈ l) (hb : b ∈ l) (hab : a ≠ b) : 2 ≤ l.length := by
  cases l with
  | nil => exact absurd ha (List.not_mem_nil a)
  | cons x xs =>
    cases xs with
    | nil =>
      have ha' : a = x := by simpa using ha
      have hb' : b = x := by simpa using hb
      rw [ha', hb'] at hab
      exact absurd rfl hab
    | cons y ys => simp [List.length_cons]

theorem findIdx_beq_inj {L : List Nat} {r1 r2 : Nat} (h1 : r1 ∈ L) (h2 : r2 ∈ L)
    (heq : L.findIdx (fun x => x == r1) = L.findIdx (fun x => x == r2)) : r1 = r2 := by
  have hl1 : L.findIdx (fun x => x == r1) < L.length :=
    List.findIdx_lt_length_of_exists ⟨r1, h1, by simp⟩
  have hl2 : L.findIdx (fun x => x == r2) < L.length :=
    List.findIdx_lt_length_of_exists ⟨r2, h2, by simp⟩
  have hg1 : (L[L.findIdx (fun x => x == r1)] == r1) = true :=
    @List.findIdx_getElem _ (fun x => x == r1) L hl1
  have hg2 : (L[L.findIdx (fun x => x == r2)] == r2) = true :=
    @List.findIdx_getElem _ (fun x => x == r2) L hl2
  rw [beq_iff_eq] at hg1 hg2
  rw [← hg1, ← hg2]
  congr 1

theorem detect_gid {db : Store} {setting : Option Int} {hashes : List Nat}
    (hnd : (db.map PhotoRow.path).Nodup)
    (hrows : (loadRows db).isEmpty = false)
    (hok : parseHashes (loadRows db) = .ok hashes)
    (hdups : (dupRootsSorted (detRoots db setting hashes)).isEmpty = false)
    {i : Nat} (hi : i < (loadRows db).length) :
    groupIdOfPath (detect_duplicates db setting).store
        (((loadRows db).get ⟨i, hi⟩).path) =
      if (detRoots db setting hashes).getD i 0 ∈
          dupRootsSorted (detRoots db setting hashes)
      then some (1 + (dupRootsSorted (detRoots db setting hashes)).findIdx
        (fun x => x == (detRoots db setting hashes).getD i 0))
      else none := by
  by_cases hret : (detRoots db setting hashes).getD i 0 ∈
      dupRootsSorted (detRoots db setting hashes)
  · rw [if_pos hret, groupIdOfPath, detect_photo_hit hnd hrows hok hdups hi hret]
  · rw [if_neg hret, groupIdOfPath]
    have hmem : (loadRows db).get ⟨i, hi⟩ ∈ db :=
      (loadRows_mem.mp (List.get_mem (loadRows db) i hi)).1
    have hmiss : ∀ j, j < (loadRows db).length →
        (detRoots db setting hashes).getD j 0 ∈
          dupRootsSorted (detRoots db setting hashes) →
        ((loadRows db).get ⟨i, hi⟩).path ≠ (detPaths db).getD j "" := by
      intro j hj hjret heq
      have hj' : j < (detPaths db).length := by rw [detPaths_length]; exact hj
      have hi' : i < (detPaths db).length := by rw [detPaths_length]; exact hi
      have hij : i = j := by
        refine detPaths_getD_inj hnd hi' hj' ?_
        rw [detPaths_getD hi, ← heq]
      rw [← hij] at hjret
      exact hret hjret
    rw [detect_photo_nogroup hnd hrows hok hdups hmem hmiss]
    rfl

theorem detect_lead {db : Store} {setting : Option Int} {hashes : List Nat}
    (hnd : (db.map PhotoRow.path).Nodup)
    (hrows : (loadRows db).isEmpty = false)
    (hok : parseHashes (loadRows db) = .ok hashes)
    (hdups : (dupRootsSorted (detRoots db setting hashes)).isEmpty = false)
    {i : Nat} (hi : i < (loadRows db).length)
    (hret : (detRoots db setting hashes).getD i 0 ∈
      dupRootsSorted (detRoots db setting hashes)) :
    leadOfPath (detect_duplicates db setting).store
        (((loadRows db).get ⟨i, hi⟩).path) =
      some (i == maxByAgg (detAggs db) (membersOf (detRoots db setting hashes)
        ((detRoots db setting hashes).getD i 0))) := by
  rw [leadOfPath, detect_photo_hit hnd hrows hok hdups hi hret]
  rfl

/-! ## Helpers for the claim theorems -/

theorem isEmpty_false_of_mem {α : Type} {l : List α} {a : α} (h : a ∈ l) :
    l.isEmpty = false := by
  cases l with
  | nil => exact absurd h (List.not_mem_nil a)
  | cons x xs => rfl

theorem bool_eq_false_of_ne_true {b : Bool} (h : ¬b = true) : b = false := by
  cases b
  · rfl
  · exact absurd rfl h

theorem getD_mem_of_lt {l : List Nat} {i : Nat} (h : i < l.length) : l.getD i 0 ∈ l := by
  rw [List.getD_eq_getElem _ _ h]
  exact List.getElem_mem h

theorem clearPhoto_path (ph : PhotoRow) : (clearPhoto ph).path = ph.path := rfl

theorem groupIdOfPath_clearAll (db : Store) (s : String) :
    groupIdOfPath (clearAll db) s = none := by
  rw [groupIdOfPath, clearAll, photoOf_map clearPhoto_path]
  cases photoOf db s <;> rfl

theorem exists_ne_mem_of_two_le {l : List Nat} (hnd : l.Nodup) (h2 : 2 ≤ l.length)
    (a : Nat) : ∃ b ∈ l, b ≠ a := by
  cases l with
  | nil =>
    rw [List.length_nil] at h2
    omega
  | cons x t =>
    cases t with
    | nil =>
      rw [List.length_cons, List.length_nil] at h2
      omega
    | cons y l =>
      rw [List.nodup_cons] at hnd
      have hxy : x ≠ y := fun h => hnd.1 (h ▸ List.mem_cons_self y l)
      by_cases hxa : x = a
      · exact ⟨y, List.mem_cons_of_mem x (List.mem_cons_self y l),
          fun h => hxy (hxa.trans h.symm)⟩
      · exact ⟨x, List.mem_cons_self x (y :: l), hxa⟩

theorem retained_iff {roots : List Nat} {i : Nat} (hi : i < roots.length)
    (hlt : roots.getD i 0 < roots.length) :
    roots.getD i 0 ∈ dupRootsSorted roots ↔
      ∃ k, k < roots.length ∧ k ≠ i ∧ roots.getD k 0 = roots.getD i 0 := by
  rw [mem_dupRootsSorted]
  constructor
  · rintro ⟨-, h2⟩
    obtain ⟨k, hk, hkne⟩ := exists_ne_mem_of_two_le (membersOf_nodup roots _) h2 i
    obtain ⟨hk1, hk2⟩ := mem_membersOf.mp hk
    exact ⟨k, hk1, hkne, hk2⟩
  · rintro ⟨k, hk1, hkne, hk2⟩
    refine ⟨hlt, ?_⟩
    exact two_le_length_of_mem_ne (mem_membersOf.mpr ⟨hk1, hk2⟩)
      (mem_membersOf.mpr ⟨hi, rfl⟩) hkne

theorem findIdx_eq_length_filter_lt :
    ∀ {L : List Nat}, List.Pairwise (· < ·) L → ∀ {r : Nat}, r ∈ L →
      L.findIdx (fun x => x == r) = (L.filter (fun x => decide (x < r))).length := by
  intro L
  induction L with
  | nil => intro _ r hr; exact absurd hr (List.not_mem_nil r)
  | cons a L ih =>
    intro hpair r hr
    rw [List.pairwise_cons] at hpair
    by_cases har : a = r
    · subst har
      have h3 : List.filter (fun x => decide (x < a)) L = [] := by
        rw [List.filter_eq_nil_iff]
        intro x hx
        have hax := hpair.1 x hx
        simp only [decide_eq_true_eq]
        omega
      simp [List.findIdx_cons, List.filter_cons, h3]
    · have hrL : r ∈ L := by
        rcases List.mem_cons.mp hr with h | h
        · exact absurd h.symm har
        · exact h
      have halt : a < r := hpair.1 r hrL
      simp only [List.findIdx_cons, List.filter_cons]
      have h1 : (a == r) = false := by simp [har]
      have h2 : decide (a < r) = true := by simp [halt]
      rw [h1, h2, cond_false, if_pos rfl]
      rw [List.length_cons, ih hpair.2 hrL]

theorem countP_or_disjoint (p q : Nat → Bool) :
    ∀ l : List Nat, (∀ x ∈ l, ¬(p x = true ∧ q x = true)) →
      l.countP (fun x => p x || q x) = l.countP p + l.countP q := by
  intro l
  induction l with
  | nil => intro _; rfl
  | cons a l ih =>
    intro hdisj
    rw [List.countP_cons, List.countP_cons, List.countP_cons,
      ih (fun x hx => hdisj x (List.mem_cons_of_mem a hx))]
    have ha := hdisj a (List.mem_cons_self a l)
    cases hp : p a with
    | false =>
      cases hq : q a with
      | false => simp [hp, hq]
      | true =>
        simp [hp, hq]
        omega
    | true =>
      cases hq : q a with
      | false =>
        simp [hp, hq]
        omega
      | true => exact absurd ⟨hp, hq⟩ ha

theorem length_membersOf_eq_countP (roots : List Nat) (r : Nat) :
    (membersOf roots r).length =
      (List.range roots.length).countP (fun i => roots.getD i 0 == r) := by
  rw [membersOf, ← List.countP_eq_length_filter]

theorem sum_members_eq_countP (roots : List Nat) :
    ∀ L : List Nat, L.Nodup →
      (L.map fun r => (membersOf roots r).length).sum =
        (List.range roots.length).countP fun i => decide (roots.getD i 0 ∈ L) := by
  intro L
  induction L with
  | nil =>
    intro _
    simp
  | cons r L ih =>
    intro hnd
    rw [List.nodup_cons] at hnd
    have hdisj : ∀ x ∈ List.range roots.length,
        ¬((roots.getD x 0 == r) = true ∧ (decide (roots.getD x 0 ∈ L)) = true) := by
      intro x _ hx
      obtain ⟨h1, h2⟩ := hx
      rw [beq_iff_eq] at h1
      rw [decide_eq_true_eq] at h2
      exact hnd.1 (h1 ▸ h2)
    have hcongr : ((List.range roots.length).countP fun i => decide (roots.getD i 0 ∈ r :: L)) =
        (List.range roots.length).countP
          (fun i => (roots.getD i 0 == r) || decide (roots.getD i 0 ∈ L)) := by
      apply List.countP_congr
      intro x _
      rw [decide_eq_true_eq, List.mem_cons, Bool.or_eq_true, beq_iff_eq, decide_eq_true_eq]
    rw [List.map_cons, List.sum_cons, ih hnd.2, length_membersOf_eq_countP, hcongr,
      countP_or_disjoint _ _ _ hdisj]

theorem totalMembers_spec (roots : List Nat) :
    totalMembers roots =
      (List.range roots.length).countP
        (fun i => decide (roots.getD i 0 ∈ dupRootsSorted roots)) := by
  rw [totalMembers]
  exact sum_members_eq_countP roots (dupRootsSorted roots) (dupRootsSorted_nodup roots)

theorem two_mul_length_le_sum (f : Nat → Nat) :
    ∀ L : List Nat, (∀ x ∈ L, 2 ≤ f x) → 2 * L.length ≤ (L.map f).sum := by
  intro L
  induction L with
  | nil => intro _; simp
  | cons a L ih =>
    intro h
    rw [List.map_cons, List.sum_cons, List.length_cons]
    have h1 := h a (List.mem_cons_self a L)
    have h2 := ih fun x hx => h x (List.mem_cons_of_mem a hx)
    omega

theorem two_mul_groups_le_totalMembers (roots : List Nat) :
    2 * (dupRootsSorted roots).length ≤ totalMembers roots := by
  rw [totalMembers]
  exact two_mul_length_le_sum _ (dupRootsSorted roots)
    (fun r hr => (mem_dupRootsSorted.mp hr).2)

theorem pairRel_matchRel_iff (hashes : List Nat) (maxd : Int) (i j : Nat) :
    pairRel (matchedPairs hashes maxd) i j ↔ MatchRel hashes maxd i j := by
  constructor
  · intro h
    have h' : (i, j) ∈ matchedPairs hashes maxd ∨ (j, i) ∈ matchedPairs hashes maxd := h
    show i < hashes.length ∧ j < hashes.length ∧ i ≠ j ∧
      (hamming (hashes.getD i 0) (hashes.getD j 0) : Int) ≤ maxd
    rcases h' with hm | hm
    · obtain ⟨hij, hj, hd⟩ := (mem_matchedPairs hashes maxd i j).mp hm
      exact ⟨by omega, hj, by omega, hd⟩
    · obtain ⟨hji, hi, hd⟩ := (mem_matchedPairs hashes maxd j i).mp hm
      refine ⟨hi, by omega, by omega, ?_⟩
      rw [hamming_comm]
      exact hd
  · intro h
    have h' : i < hashes.length ∧ j < hashes.length ∧ i ≠ j ∧
        (hamming (hashes.getD i 0) (hashes.getD j 0) : Int) ≤ maxd := h
    obtain ⟨hi, hj, hne, hd⟩ := h'
    show (i, j) ∈ matchedPairs hashes maxd ∨ (j, i) ∈ matchedPairs hashes maxd
    rcases Nat.lt_or_ge i j with hlt | hge
    · exact Or.inl ((mem_matchedPairs hashes maxd i j).mpr ⟨hlt, hj, hd⟩)
    · have hji : j < i := by omega
      refine Or.inr ((mem_matchedPairs hashes maxd j i).mpr ⟨hji, hi, ?_⟩)
      rw [hamming_comm]
      exact hd

theorem eqvGen_matched_iff (hashes : List Nat) (maxd : Int) (i j : Nat) :
    Relation.EqvGen (pairRel (matchedPairs hashes maxd)) i j ↔
      Relation.EqvGen (MatchRel hashes maxd) i j := by
  constructor
  · exact eqvGen_le (fun u v huv =>
      Relation.EqvGen.rel u v ((pairRel_matchRel_iff hashes maxd u v).mp huv)) i j
  · exact eqvGen_le (fun u v huv =>
      Relation.EqvGen.rel u v ((pairRel_matchRel_iff hashes maxd u v).mpr huv)) i j

theorem matchRel_hamming_zero {hashes : List Nat} (hlt : ∀ v ∈ hashes, v < 2 ^ 64)
    {i j : Nat} (h : MatchRel hashes 0 i j) :
    hashes.getD i 0 = hashes.getD j 0 := by
  have h' : i < hashes.length ∧ j < hashes.length ∧ i ≠ j ∧
      (hamming (hashes.getD i 0) (hashes.getD j 0) : Int) ≤ 0 := h
  obtain ⟨hi, hj, -, hd⟩ := h'
  have hz : hamming (hashes.getD i 0) (hashes.getD j 0) = 0 := by omega
  exact (hamming_eq_zero_iff _ _ (hlt _ (getD_mem_of_lt hi))
    (hlt _ (getD_mem_of_lt hj))).mp hz

theorem eqvGen_matchRel_zero {hashes : List Nat} (hlt : ∀ v ∈ hashes, v < 2 ^ 64)
    {i j : Nat} (hi : i < hashes.length) (hj : j < hashes.length) :
    Relation.EqvGen (MatchRel hashes 0) i j ↔ hashes.getD i 0 = hashes.getD j 0 := by
  constructor
  · intro h
    clear hi hj
    induction h with
    | rel a b hab => exact matchRel_hamming_zero hlt hab
    | refl a => rfl
    | symm a b _ ih => exact ih.symm
    | trans a b c _ _ ih1 ih2 => exact ih1.trans ih2
  · intro h
    by_cases hij : i = j
    · subst hij
      exact Relation.EqvGen.refl i
    · refine Relation.EqvGen.rel i j ?_
      show i < hashes.length ∧ j < hashes.length ∧ i ≠ j ∧
        (hamming (hashes.getD i 0) (hashes.getD j 0) : Int) ≤ 0
      refine ⟨hi, hj, hij, ?_⟩
      rw [h, hamming_self]
      simp

theorem eqvGen_matchRel_full {hashes : List Nat} (hlt : ∀ v ∈ hashes, v < 2 ^ 64)
    {i j : Nat} (hi : i < hashes.length) (hj : j < hashes.length) :
    Relation.EqvGen (MatchRel hashes 64) i j := by
  by_cases hij : i = j
  · subst hij
    exact Relation.EqvGen.refl i
  · refine Relation.EqvGen.rel i j ?_
    show i < hashes.length ∧ j < hashes.length ∧ i ≠ j ∧
      (hamming (hashes.getD i 0) (hashes.getD j 0) : Int) ≤ 64
    refine ⟨hi, hj, hij, ?_⟩
    have hle := hamming_le_64 (hashes.getD i 0) (hashes.getD j 0)
      (hlt _ (getD_mem_of_lt hi)) (hlt _ (getD_mem_of_lt hj))
    omega

theorem maxDistance_eq_floor (p : Int) (hp0 : 0 ≤ p) (hp100 : p ≤ 100) :
    maxDistance p = Int.floor ((64 : ℚ) * (1 - (p : ℚ) / 100)) := by
  rw [maxDistance, Int.tdiv_eq_ediv (by omega) (by norm_num)]
  have hq : (64 : ℚ) * (1 - (p : ℚ) / 100) = ((64 * (100 - p) : ℤ) : ℚ) / ((100 : ℕ) : ℚ) := by
    push_cast
    ring
  rw [hq, Rat.floor_intCast_div_natCast]
  norm_num

theorem maxDistance_nonpos_of_gt100 (p : Int) (h : 100 < p) : maxDistance p ≤ 0 := by
  rw [maxDistance]
  have h2 : (64 : Int) * (100 - p) = -(64 * (p - 100)) := by ring
  rw [h2, Int.neg_tdiv, Int.tdiv_eq_ediv (by omega) (by norm_num)]
  have h3 := Int.ediv_nonneg (show (0:Int) ≤ 64 * (p - 100) by omega)
    (show (0:Int) ≤ 100 by norm_num)
  omega

theorem maxDistance_ge64_of_neg (p : Int) (h : p < 0) : 64 ≤ maxDistance p := by
  rw [maxDistance, Int.tdiv_eq_ediv (by omega) (by norm_num),
    Int.le_ediv_iff_mul_le (by norm_num : (0:Int) < 100)]
  omega

theorem detect_err_cases {db : Store} {setting : Option Int} {e : DetectErr}
    (h : (detect_duplicates db setting).err = some e) :
    e = DetectErr.dataError ∧ (detect_duplicates db setting).store = db ∧
      (detect_duplicates db setting).reported = none ∧
      (detect_duplicates db setting).returned = none := by
  by_cases hrows : (loadRows db).isEmpty = true
  · rw [detect_eq_empty hrows] at h
    exact Option.noConfusion h
  · have hrows' := bool_eq_false_of_ne_true hrows
    cases hp : parseHashes (loadRows db) with
    | error e2 =>
      have hd := @detect_eq_err db setting e2 hrows' hp
      rw [hd]
      cases e
      exact ⟨rfl, rfl, rfl, rfl⟩
    | ok hashes =>
      have hd := @detect_eq_ok db setting hashes hrows' hp
      rw [hd] at h
      by_cases hdup : (dupRootsSorted (detRoots db setting hashes)).isEmpty = true
      · rw [if_pos hdup] at h
        exact Option.noConfusion h
      · rw [if_neg hdup] at h
        exact Option.noConfusion h

theorem detect_returned_none (db : Store) (setting : Option Int) :
    (detect_duplicates db setting).returned = none := by
  by_cases hrows : (loadRows db).isEmpty = true
  · rw [detect_eq_empty hrows]
  · have hrows' := bool_eq_false_of_ne_true hrows
    cases hp : parseHashes (loadRows db) with
    | error e2 => rw [detect_eq_err hrows' hp]
    | ok hashes =>
      rw [detect_eq_ok hrows' hp]
      by_cases hdup : (dupRootsSorted (detRoots db setting hashes)).isEmpty = true
      · rw [if_pos hdup]
      · rw [if_neg hdup]

theorem detRoots_len {db : Store} (setting : Option Int) {hashes : List Nat}
    (hok : parseHashes (loadRows db) = Except.ok hashes) :
    (detRoots db setting hashes).length = (loadRows db).length := by
  obtain ⟨hrlen, -, -, -⟩ := @detRoots_spec db setting hashes hok
  rw [hrlen, detPaths_length]

theorem detRoots_retained_iff {db : Store} (setting : Option Int) {hashes : List Nat}
    (hok : parseHashes (loadRows db) = Except.ok hashes)
    {i : Nat} (hi : i < (loadRows db).length) :
    ((detRoots db setting hashes).getD i 0 ∈ dupRootsSorted (detRoots db setting hashes) ↔
      ∃ k, k < (loadRows db).length ∧ k ≠ i ∧
        (detRoots db setting hashes).getD k 0 = (detRoots db setting hashes).getD i 0) := by
  obtain ⟨hrlen, hrlt, -, -⟩ := @detRoots_spec db setting hashes hok
  have hnp : (detPaths db).length = (loadRows db).length := detPaths_length db
  have hlen : (detRoots db setting hashes).length = (loadRows db).length := by
    rw [hrlen, detPaths_length]
  have hi' : i < (detRoots db setting hashes).length := by omega
  have hlt : (detRoots db setting hashes).getD i 0 < (detRoots db setting hashes).length := by
    have h1 := hrlt i (by rw [hnp]; exact hi)
    omega
  rw [retained_iff hi' hlt]
  constructor
  · rintro ⟨k, hk1, hk2, hk3⟩
    exact ⟨k, by omega, hk2, hk3⟩
  · rintro ⟨k, hk1, hk2, hk3⟩
    exact ⟨k, by omega, hk2, hk3⟩

theorem detRoots_eqvGen_iff {db : Store} (setting : Option Int) {hashes : List Nat}
    (hok : parseHashes (loadRows db) = Except.ok hashes)
    (i j : Nat) (hi : i < (loadRows db).length) (hj : j < (loadRows db).length) :
    ((detRoots db setting hashes).getD i 0 = (detRoots db setting hashes).getD j 0 ↔
      Relation.EqvGen (MatchRel hashes (detMaxd setting)) i j) := by
  obtain ⟨-, -, -, hiff⟩ := @detRoots_spec db setting hashes hok
  rw [hiff i j (by rw [detPaths_length]; exact hi) (by rw [detPaths_length]; exact hj)]
  exact eqvGen_matched_iff hashes (detMaxd setting) i j

theorem detect_gid_iff {db : Store} {setting : Option Int} {hashes : List Nat}
    (hnd : (db.map PhotoRow.path).Nodup)
    (hrows : (loadRows db).isEmpty = false)
    (hok : parseHashes (loadRows db) = Except.ok hashes)
    {i j : Nat} (hi : i < (loadRows db).length) (hj : j < (loadRows db).length) :
    ((∃ g, groupIdOfPath (detect_duplicates db setting).store ((detPaths db).getD i "") = some g ∧
           groupIdOfPath (detect_duplicates db setting).store ((detPaths db).getD j "") = some g)
      ↔ ((detRoots db setting hashes).getD i 0 = (detRoots db setting hashes).getD j 0 ∧
         (detRoots db setting hashes).getD i 0 ∈ dupRootsSorted (detRoots db setting hashes))) := by
  by_cases hdups : (dupRootsSorted (detRoots db setting hashes)).isEmpty = true
  · have hstore : (detect_duplicates db setting).store = clearAll db := by
      rw [@detect_eq_ok db setting hashes hrows hok, if_pos hdups]
    constructor
    · rintro ⟨g, hgi, -⟩
      rw [hstore, groupIdOfPath_clearAll] at hgi
      exact Option.noConfusion hgi
    · rintro ⟨-, hret⟩
      rw [isEmpty_false_of_mem hret] at hdups
      exact Bool.noConfusion hdups
  · have hdups' := bool_eq_false_of_ne_true hdups
    have hgi := detect_gid hnd hrows hok hdups' hi
    have hgj := detect_gid hnd hrows hok hdups' hj
    rw [detPaths_getD hi, detPaths_getD hj, hgi, hgj]
    constructor
    · rintro ⟨g, h1, h2⟩
      by_cases hri : (detRoots db setting hashes).getD i 0 ∈
          dupRootsSorted (detRoots db setting hashes)
      · by_cases hrj : (detRoots db setting hashes).getD j 0 ∈
            dupRootsSorted (detRoots db setting hashes)
        · rw [if_pos hri] at h1
          rw [if_pos hrj] at h2
          refine ⟨?_, hri⟩
          injection h1 with hg1
          injection h2 with hg2
          exact findIdx_beq_inj hri hrj (by omega)
        · rw [if_neg hrj] at h2
          exact Option.noConfusion h2
      · rw [if_neg hri] at h1
        exact Option.noConfusion h1
    · rintro ⟨heq, hret⟩
      have hretj : (detRoots db setting hashes).getD j 0 ∈
          dupRootsSorted (detRoots db setting hashes) := by
        rw [← heq]
        exact hret
      refine ⟨1 + (dupRootsSorted (detRoots db setting hashes)).findIdx
        (fun x => x == (detRoots db setting hashes).getD i 0), ?_, ?_⟩
      · rw [if_pos hret]
      · rw [if_pos hretj, heq]

/-! ## The claims -/

/-- C3: confirmed.  The chunked scan compares every unordered index pair
exactly once (`comparedPairs` with the source's chunk size equals the plain
list of all pairs `i < j`, which has no duplicates), the merged pairs are
exactly the pairs within `max_distance`, and the byte-table distance equals
the true Hamming distance on all 64-bit values. -/
theorem C3_pair_scan (hashes : List Nat) (maxd : Int) :
    comparedPairs hashes.length chunk_size = allPairs hashes.length ∧
    (matchedPairs hashes maxd).Nodup ∧
    (∀ i j, ((i, j) ∈ matchedPairs hashes maxd ↔
      i < j ∧ j < hashes.length ∧
        (hamming (hashes.getD i 0) (hashes.getD j 0) : Int) ≤ maxd)) ∧
    (∀ a b, a < 2 ^ 64 → b < 2 ^ 64 → hamming a b = trueHamming a b) :=
  ⟨comparedPairs_eq_allPairs hashes.length,
   matchedPairs_nodup hashes maxd,
   fun i j => mem_matchedPairs hashes maxd i j,
   fun a b ha hb => hamming_eq_trueHamming a b ha hb⟩

/-- C3 witness: the scan facts instantiated on the hashes of `db8`, and the
computed distance between all-zero and all-one hashes agrees with the true
Hamming distance 64. -/
theorem C3_pair_scan_witness :
    comparedPairs hs8.length chunk_size = allPairs hs8.length ∧
    ((0, 7) ∈ matchedPairs hs8 6 ↔ 0 < 7 ∧ 7 < hs8.length ∧
      (hamming (hs8.getD 0 0) (hs8.getD 7 0) : Int) ≤ 6) ∧
    hamming 0 18446744073709551615 = trueHamming 0 18446744073709551615 ∧
    trueHamming 0 18446744073709551615 = 64 ∧
    (0, 7) ∈ matchedPairs hs8 6 :=
  ⟨(C3_pair_scan hs8 6).1,
   (C3_pair_scan hs8 6).2.2.1 0 7,
   (C3_pair_scan hs8 6).2.2.2 0 18446744073709551615 (by norm_num) (by norm_num),
   by decide,
   by decide⟩

/-- C5: confirmed.  For every integer `0 ≤ p ≤ 100` the computed threshold
is exactly `⌊64 (1 - p/100)⌋`; at `p = 100` it is 0, so two loaded photos
share a union-find root exactly when their hashes are bit-identical, and at
`p = 0` it is 64, so all loaded photos share one root. -/
theorem C5_threshold_formula (p : Int) (hp0 : 0 ≤ p) (hp100 : p ≤ 100) :
    maxDistance p = Int.floor ((64 : ℚ) * (1 - (p : ℚ) / 100)) ∧
    maxDistance 100 = 0 ∧
    maxDistance 0 = 64 ∧
    (∀ (db : Store) (hashes : List Nat), parseHashes (loadRows db) = Except.ok hashes →
      ∀ i j, i < (loadRows db).length → j < (loadRows db).length →
        ((detRoots db (some 100) hashes).getD i 0 = (detRoots db (some 100) hashes).getD j 0 ↔
          hashes.getD i 0 = hashes.getD j 0)) ∧
    (∀ (db : Store) (hashes : List Nat), parseHashes (loadRows db) = Except.ok hashes →
      ∀ i j, i < (loadRows db).length → j < (loadRows db).length →
        (detRoots db (some 0) hashes).getD i 0 = (detRoots db (some 0) hashes).getD j 0) := by
  refine ⟨maxDistance_eq_floor p hp0 hp100, by decide, by decide, ?_, ?_⟩
  · intro db hashes hok i j hi hj
    have hlen : hashes.length = (loadRows db).length := parseHashes_length hok
    rw [detRoots_eqvGen_iff (some 100) hok i j hi hj,
      show detMaxd (some 100) = 0 from by decide]
    exact eqvGen_matchRel_zero (parseHashes_lt hok) (by omega) (by omega)
  · intro db hashes hok i j hi hj
    have hlen : hashes.length = (loadRows db).length := parseHashes_length hok
    rw [detRoots_eqvGen_iff (some 0) hok i j hi hj,
      show detMaxd (some 0) = 64 from by decide]
    exact eqvGen_matchRel_full (parseHashes_lt hok) (by omega) (by omega)

/-- C5 witness: the endpoint values obtained from the threshold theorem at
`p = 90`, plus the threshold value 6 the default setting produces. -/
theorem C5_threshold_formula_witness :
    (0 : Int) ≤ 90 ∧ (90 : Int) ≤ 100 ∧
    maxDistance 100 = 0 ∧ maxDistance 0 = 64 ∧ maxDistance 90 = 6 :=
  ⟨by norm_num, by norm_num,
   (C5_threshold_formula 90 (by norm_num) (by norm_num)).2.1,
   (C5_threshold_formula 90 (by norm_num) (by norm_num)).2.2.1,
   by decide⟩

/-- C6: confirmed.  When some loaded row's hash does not parse to a 64-bit
value the run stops with the data error, leaving the store untouched and
reporting nothing; more generally every erroring run leaves the store
exactly as it was. -/
theorem C6_data_error_aborts {db : Store} {setting : Option Int} {r : PhotoRow}
    (hr : r ∈ loadRows db)
    (hbad : ∀ v, _hex_to_uint64 (r.phash.getD "") = some v → 2 ^ 64 ≤ v) :
    ((detect_duplicates db setting).err = some DetectErr.dataError ∧
     (detect_duplicates db setting).store = db ∧
     (detect_duplicates db setting).reported = none) ∧
    (∀ (db2 : Store) (setting2 : Option Int) (e : DetectErr),
      (detect_duplicates db2 setting2).err = some e →
      (detect_duplicates db2 setting2).store = db2 ∧
      (detect_duplicates db2 setting2).reported = none) := by
  constructor
  · have herr := parseHashes_error_of_bad hr hbad
    have hrows : (loadRows db).isEmpty = false := isEmpty_false_of_mem hr
    rw [@detect_eq_err db setting DetectErr.dataError hrows herr]
    exact ⟨rfl, rfl, rfl⟩
  · intro db2 setting2 e he
    obtain ⟨-, h1, h2, -⟩ := detect_err_cases he
    exact ⟨h1, h2⟩

/-- C6 witness: the unparseable hash "zz" aborts the run on `dbBad` with
the data error and no store change. -/
theorem C6_data_error_aborts_witness :
    (⟨"m", some "zz", some 0, none, false⟩ : PhotoRow) ∈ loadRows dbBad ∧
    _hex_to_uint64 "zz" = none ∧
    (detect_duplicates dbBad none).err = some DetectErr.dataError ∧
    (detect_duplicates dbBad none).store = dbBad :=
  ⟨by decide, by decide,
   (@C6_data_error_aborts dbBad none ⟨"m", some "zz", some 0, none, false⟩
     (by decide) (fun v hv => Option.noConfusion hv)).1.1,
   (@C6_data_error_aborts dbBad none ⟨"m", some "zz", some 0, none, false⟩
     (by decide) (fun v hv => Option.noConfusion hv)).1.2.1⟩

/-- C7: corrected.  The code never validates the configured percentage:
there is no configuration error at all (the only possible error is the
data error), an out-of-range setting flows into the threshold formula
(negative-or-zero threshold above 100, threshold at least 64 below 0) and
the run proceeds to read and write; only the default of 90 for an
unspecified setting holds.  See the counterexample for a full run at 150. -/
theorem C7_no_config_validation (db : Store) (p : Int) :
    detect_duplicates db none = detect_duplicates db (some 90) ∧
    (∀ e, (detect_duplicates db (some p)).err = some e → e = DetectErr.dataError) ∧
    (100 < p → maxDistance p ≤ 0) ∧
    (p < 0 → 64 ≤ maxDistance p) := by
  refine ⟨rfl, ?_, maxDistance_nonpos_of_gt100 p, maxDistance_ge64_of_neg p⟩
  intro e he
  exact (detect_err_cases he).1

/-- C7 counterexample: with the out-of-range setting 150 the run on `db2c`
does not fail fast: it completes without error, reads the store and writes
to it (the stale marking of "x" is cleared, so the store changes). -/
theorem C7_no_config_validation_cex :
    (detect_duplicates db2c (some 150)).err = none ∧
    (detect_duplicates db2c (some 150)).store ≠ db2c ∧
    maxDistance 150 = -32 ∧
    groupIdOfPath (detect_duplicates db2c (some 150)).store "x" = none ∧
    groupIdOfPath db2c "x" = some 7 := by
  refine ⟨by decide, by decide, by decide, by decide, by decide⟩

/-- C7 witness: the theorem instantiated at `db2c` and 150. -/
theorem C7_no_config_validation_witness :
    detect_duplicates db2c none = detect_duplicates db2c (some 90) ∧
    maxDistance 150 ≤ 0 :=
  ⟨(C7_no_config_validation db2c 150).1,
   (C7_no_config_validation db2c 150).2.2.1 (by norm_num)⟩

/-- C8: corrected.  Clearing happens only when at least one photo has a
hash: under that hypothesis a run that retains no group rewrites the store
to its cleared form, with every group id none and every lead flag false.
When no photo has a hash the function returns before the clearing UPDATE
and stale markings survive — see the counterexample. -/
theorem C8_clears_when_no_groups {db : Store} {setting : Option Int} {hashes : List Nat}
    (hrows : (loadRows db).isEmpty = false)
    (hok : parseHashes (loadRows db) = Except.ok hashes)
    (hempty : (dupRootsSorted (detRoots db setting hashes)).isEmpty = true) :
    (detect_duplicates db setting).store = clearAll db ∧
    (∀ ph ∈ (detect_duplicates db setting).store,
      ph.duplicate_group_id = none ∧ ph.is_duplicate_lead = false) := by
  have hstore : (detect_duplicates db setting).store = clearAll db := by
    rw [@detect_eq_ok db setting hashes hrows hok, if_pos hempty]
  refine ⟨hstore, ?_⟩
  intro ph hph
  rw [hstore, clearAll] at hph
  obtain ⟨a, -, ha⟩ := List.mem_map.mp hph
  rw [← ha]
  exact ⟨rfl, rfl⟩

/-- C8 counterexample: `dbStale` has zero qualifying matches (its only
photo has no hash at all), yet running the detection leaves its stale
group id 3 and lead flag in place — the early return on an empty row set
skips the clearing UPDATE. -/
theorem C8_clears_when_no_groups_cex :
    (detect_duplicates dbStale none).store = dbStale ∧
    groupIdOfPath (detect_duplicates dbStale none).store "s" = some 3 ∧
    leadOfPath (detect_duplicates dbStale none).store "s" = some true ∧
    (detect_duplicates dbStale none).err = none := by
  refine ⟨by decide, by decide, by decide, by decide⟩

/-- C8 witness: on `dbW` (two hashed, very distant photos with stale
markings) the no-group run rewrites the store to its cleared form. -/
theorem C8_clears_when_no_groups_witness :
    (loadRows dbW).isEmpty = false ∧
    (dupRootsSorted (detRoots dbW none [0, 18446744073709551615])).isEmpty = true ∧
    (detect_duplicates dbW none).store = clearAll dbW :=
  ⟨by decide, by decide,
   (@C8_clears_when_no_groups dbW none [0, 18446744073709551615]
     (by decide) rfl (by decide)).1⟩

/-- C9: corrected.  The function never returns a value (every `return` in
the source is bare, so the Python function returns None); the summary
numbers are only printed.  The printed numbers do satisfy the claimed
relations: groups = number of retained roots, total = number of loaded
photos whose component is retained, hidden = total − groups, and
2·groups ≤ total. -/
theorem C9_returns_none_reports_summary {db : Store} {setting : Option Int} {hashes : List Nat}
    (hrows : (loadRows db).isEmpty = false)
    (hok : parseHashes (loadRows db) = Except.ok hashes)
    (hdups : (dupRootsSorted (detRoots db setting hashes)).isEmpty = false) :
    (detect_duplicates db setting).returned = none ∧
    (∃ s : Summary,
      (detect_duplicates db setting).reported = some s ∧
      s.groups = (dupRootsSorted (detRoots db setting hashes)).length ∧
      s.total = (List.range (loadRows db).length).countP
        (fun i => decide ((detRoots db setting hashes).getD i 0 ∈
          dupRootsSorted (detRoots db setting hashes))) ∧
      s.hidden = s.total - s.groups ∧
      2 * s.groups ≤ s.total) := by
  refine ⟨detect_returned_none db setting, ?_⟩
  have hrep : (detect_duplicates db setting).reported =
      some ⟨(dupRootsSorted (detRoots db setting hashes)).length,
            totalMembers (detRoots db setting hashes),
            totalMembers (detRoots db setting hashes) -
              (dupRootsSorted (detRoots db setting hashes)).length⟩ := by
    rw [@detect_eq_ok db setting hashes hrows hok, if_neg (by rw [hdups]; simp)]
  refine ⟨_, hrep, rfl, ?_, rfl, ?_⟩
  · show totalMembers (detRoots db setting hashes) = _
    rw [totalMembers_spec, detRoots_len setting hok]
  · show 2 * (dupRootsSorted (detRoots db setting hashes)).length ≤
      totalMembers (detRoots db setting hashes)
    exact two_mul_groups_le_totalMembers _

/-- C9 counterexample: on `db8` the function computes and prints the
summary 2 groups / 6 photos / 4 hidden but returns nothing — the spec's
`-> Summary` return contract does not hold. -/
theorem C9_returns_none_reports_summary_cex :
    (detect_duplicates db8 none).returned = none ∧
    (detect_duplicates db8 none).reported =
      some { groups := 2, total := 6, hidden := 4 } := by
  refine ⟨by decide, by decide⟩

/-- C9 witness: the summary relations instantiated on `db8`. -/
theorem C9_returns_none_reports_summary_witness :
    (loadRows db8).isEmpty = false ∧
    (dupRootsSorted (detRoots db8 none hs8)).isEmpty = false ∧
    ((detect_duplicates db8 none).returned = none ∧
     (∃ s : Summary,
       (detect_duplicates db8 none).reported = some s ∧
       s.groups = (dupRootsSorted (detRoots db8 none hs8)).length ∧
       s.total = (List.range (loadRows db8).length).countP
         (fun i => decide ((detRoots db8 none hs8).getD i 0 ∈
           dupRootsSorted (detRoots db8 none hs8))) ∧
       s.hidden = s.total - s.groups ∧
       2 * s.groups ≤ s.total)) :=
  ⟨by decide, by decide,
   C9_returns_none_reports_summary (by decide) rfl (by decide)⟩

/-- C10: confirmed.  When no stored photo has a hash the run returns at
the empty-row check before any write: the store (stale markings included)
is returned untouched, with no error, no report and no return value. -/
theorem C10_empty_early_return (db : Store) (setting : Option Int)
    (h : ∀ ph ∈ db, ph.phash = none) :
    detect_duplicates db setting = ⟨db, none, none, none⟩ := by
  have hload : loadRows db = [] := by
    rw [loadRows]
    have hf : db.filter (fun ph => ph.phash.isSome) = [] := by
      rw [List.filter_eq_nil_iff]
      intro ph hph
      rw [h ph hph]
      simp
    rw [hf]
    rfl
  rw [detect_eq_empty (by rw [hload]; rfl)]

/-- C10 witness: on `dbStale` (one hashless photo with stale markings) the
run returns the store unchanged. -/
theorem C10_empty_early_return_witness :
    dbStale.all (fun ph => ph.phash == none) = true ∧
    detect_duplicates dbStale none = ⟨dbStale, none, none, none⟩ :=
  ⟨by decide, C10_empty_early_return dbStale none (by decide)⟩

/-- C1: corrected.  The code orders the retained groups by their union-find
root index (`sorted(dup_groups.items())` sorts on the integer root), not by
their lexicographically smallest member identifier: the persisted group id
of a retained photo is 1 plus the number of retained roots smaller than its
own root.  The assignment is deterministic given the processing order and
every root is a member of its own group, but the resulting order can differ
from the spec's rule — see the counterexample. -/
theorem C1_ids_follow_root_order {db : Store} {setting : Option Int} {hashes : List Nat}
    (hnd : (db.map PhotoRow.path).Nodup)
    (hrows : (loadRows db).isEmpty = false)
    (hok : parseHashes (loadRows db) = Except.ok hashes)
    (hdups : (dupRootsSorted (detRoots db setting hashes)).isEmpty = false)
    {i : Nat} (hi : i < (loadRows db).length)
    (hret : (detRoots db setting hashes).getD i 0 ∈
      dupRootsSorted (detRoots db setting hashes)) :
    groupIdOfPath (detect_duplicates db setting).store ((detPaths db).getD i "") =
      some (1 + ((dupRootsSorted (detRoots db setting hashes)).filter
        (fun x => decide (x < (detRoots db setting hashes).getD i 0))).length) ∧
    (detRoots db setting hashes).getD i 0 ∈
      membersOf (detRoots db setting hashes) ((detRoots db setting hashes).getD i 0) := by
  obtain ⟨hrlen, hrlt, hidem, -⟩ := @detRoots_spec db setting hashes hok
  constructor
  · rw [detPaths_getD hi, detect_gid hnd hrows hok hdups hi, if_pos hret,
      findIdx_eq_length_filter_lt (dupRootsSorted_pairwise _) hret]
  · refine mem_membersOf.mpr ⟨?_, hidem i (by rw [detPaths_length]; exact hi)⟩
    rw [hrlen]
    exact hrlt i (by rw [detPaths_length]; exact hi)

/-- C1 counterexample: in `db8` the retained groups are {a,f,g,h} (root 5)
and {b,c} (root 1).  The group containing the lexicographically smallest
retained identifier "a" receives id 2 (its root 5 sorts after root 1) while
{b,c} receives id 1; the spec's ordering rule (`specGroupIdOfIdx`) assigns
the photo "a" id 1 instead. -/
theorem C1_ids_follow_root_order_cex :
    pathLt "a" "b" = true ∧
    groupIdOfPath (detect_duplicates db8 none).store "a" = some 2 ∧
    groupIdOfPath (detect_duplicates db8 none).store "f" = some 2 ∧
    groupIdOfPath (detect_duplicates db8 none).store "b" = some 1 ∧
    groupIdOfPath (detect_duplicates db8 none).store "c" = some 1 ∧
    specGroupIdOfIdx (detPaths db8) (detRoots db8 none hs8) 0 = some 1 ∧
    parseHashes (loadRows db8) = Except.ok hs8 ∧
    (detPaths db8).getD 0 "" = "a" := by
  refine ⟨by decide, by decide, by decide, by decide, by decide, by decide, rfl, by decide⟩

/-- C1 witness: the amended id formula instantiated on `db8` at loaded
index 0 (photo "a", root 5, one retained root below it, id 2). -/
theorem C1_ids_follow_root_order_witness :
    (db8.map PhotoRow.path).Nodup ∧
    (loadRows db8).isEmpty = false ∧
    (dupRootsSorted (detRoots db8 none hs8)).isEmpty = false ∧
    (detRoots db8 none hs8).getD 0 0 ∈ dupRootsSorted (detRoots db8 none hs8) ∧
    (groupIdOfPath (detect_duplicates db8 none).store ((detPaths db8).getD 0 "") =
      some (1 + ((dupRootsSorted (detRoots db8 none hs8)).filter
        (fun x => decide (x < (detRoots db8 none hs8).getD 0 0))).length) ∧
     (detRoots db8 none hs8).getD 0 0 ∈
       membersOf (detRoots db8 none hs8) ((detRoots db8 none hs8).getD 0 0)) :=
  ⟨by decide, by decide, by decide, by decide,
   @C1_ids_follow_root_order db8 none hs8 (by decide) (by decide) rfl (by decide)
     0 (by decide) (by decide)⟩

/-- C2: confirmed.  For every retained group the chosen lead is a member
with maximal aggregate score; on ties the member with the smallest loaded
index — by the sorted load order, the lexicographically smallest
identifier — is chosen; in the persisted store the lead flag of each
member is true exactly for the chosen member, which occurs exactly once in
the group. -/
theorem C2_lead_selection {db : Store} {setting : Option Int} {hashes : List Nat}
    (hnd : (db.map PhotoRow.path).Nodup)
    (hrows : (loadRows db).isEmpty = false)
    (hok : parseHashes (loadRows db) = Except.ok hashes)
    (hdups : (dupRootsSorted (detRoots db setting hashes)).isEmpty = false)
    {r : Nat} (hr : r ∈ dupRootsSorted (detRoots db setting hashes)) :
    maxByAgg (detAggs db) (membersOf (detRoots db setting hashes) r) ∈
      membersOf (detRoots db setting hashes) r ∧
    (∀ i ∈ membersOf (detRoots db setting hashes) r,
      (detAggs db).getD i 0 ≤
        (detAggs db).getD (maxByAgg (detAggs db) (membersOf (detRoots db setting hashes) r)) 0) ∧
    (∀ i ∈ membersOf (detRoots db setting hashes) r,
      (detAggs db).getD i 0 =
        (detAggs db).getD (maxByAgg (detAggs db) (membersOf (detRoots db setting hashes) r)) 0 →
      pathLe
        ((detPaths db).getD (maxByAgg (detAggs db) (membersOf (detRoots db setting hashes) r)) "")
        ((detPaths db).getD i "") = true) ∧
    (∀ i ∈ membersOf (detRoots db setting hashes) r,
      leadOfPath (detect_duplicates db setting).store ((detPaths db).getD i "") =
        some (i == maxByAgg (detAggs db) (membersOf (detRoots db setting hashes) r))) ∧
    (membersOf (detRoots db setting hashes) r).count
      (maxByAgg (detAggs db) (membersOf (detRoots db setting hashes) r)) = 1 := by
  obtain ⟨hrlen, hrlt, hidem, -⟩ := @detRoots_spec db setting hashes hok
  obtain ⟨hrb, h2⟩ := mem_dupRootsSorted.mp hr
  have hne : membersOf (detRoots db setting hashes) r ≠ [] := by
    intro h
    rw [h] at h2
    simp at h2
  obtain ⟨hbmem, hbmax, hbtie⟩ := maxByAgg_spec (detAggs db)
    (membersOf (detRoots db setting hashes) r) hne (membersOf_pairwise _ _)
  have hmemlt : ∀ i ∈ membersOf (detRoots db setting hashes) r, i < (loadRows db).length := by
    intro i hi
    have hlt := (mem_membersOf.mp hi).1
    rw [hrlen, detPaths_length] at hlt
    exact hlt
  refine ⟨hbmem, hbmax, ?_, ?_, ?_⟩
  · intro i hi htie
    have hble := hbtie i hi htie
    by_cases heq : maxByAgg (detAggs db) (membersOf (detRoots db setting hashes) r) = i
    · rw [heq]
      exact pathLe_refl _
    · have hblt : maxByAgg (detAggs db) (membersOf (detRoots db setting hashes) r) < i := by
        omega
      have hstrict :
          pathLt ((detPaths db).getD
              (maxByAgg (detAggs db) (membersOf (detRoots db setting hashes) r)) "")
            ((detPaths db).getD i "") = true :=
        loadRows_strict hnd
          (maxByAgg (detAggs db) (membersOf (detRoots db setting hashes) r)) i hblt
          (hmemlt i hi)
      show (!pathLt ((detPaths db).getD i "")
          ((detPaths db).getD
            (maxByAgg (detAggs db) (membersOf (detRoots db setting hashes) r)) "")) = true
      rw [pathLt_asymm hstrict]
      rfl
  · intro i hi
    have hilt := hmemlt i hi
    obtain ⟨hi1, hi2⟩ := mem_membersOf.mp hi
    have hret : (detRoots db setting hashes).getD i 0 ∈
        dupRootsSorted (detRoots db setting hashes) := by
      rw [hi2]
      exact hr
    have hlead := detect_lead hnd hrows hok hdups hilt hret
    rw [detPaths_getD hilt, hlead, hi2]
  · exact List.count_eq_one_of_mem (membersOf_nodup _ _) hbmem

/-- C2 witness: in `db8` the group with root 1 is {1, 2} ("b", "c"), both
with aggregate 0; the tie is broken to index 1 ("b"), which is the only
member whose persisted lead flag is true. -/
theorem C2_lead_selection_witness :
    (loadRows db8).isEmpty = false ∧
    1 ∈ dupRootsSorted (detRoots db8 none hs8) ∧
    maxByAgg (detAggs db8) (membersOf (detRoots db8 none hs8) 1) ∈
      membersOf (detRoots db8 none hs8) 1 ∧
    (membersOf (detRoots db8 none hs8) 1).count
      (maxByAgg (detAggs db8) (membersOf (detRoots db8 none hs8) 1)) = 1 ∧
    leadOfPath (detect_duplicates db8 none).store ((detPaths db8).getD 1 "") =
      some (1 == maxByAgg (detAggs db8) (membersOf (detRoots db8 none hs8) 1)) :=
  ⟨by decide, by decide,
   (@C2_lead_selection db8 none hs8 (by decide) (by decide) rfl (by decide) 1 (by decide)).1,
   (@C2_lead_selection db8 none hs8 (by decide) (by decide) rfl (by decide) 1
     (by decide)).2.2.2.2,
   (@C2_lead_selection db8 none hs8 (by decide) (by decide) rfl (by decide) 1
     (by decide)).2.2.2.1 1 (by decide)⟩

/-- C4: confirmed.  Two loaded photos end up with one shared group id
exactly when they are connected through the match relation and the
component is retained (shares a witness of size ≥ 2); in particular two
within-threshold distances A-B and B-C put A, B and C into one group even
when A and C are farther apart than the threshold. -/
theorem C4_transitive_components {db : Store} {setting : Option Int} {hashes : List Nat}
    (hnd : (db.map PhotoRow.path).Nodup)
    (hrows : (loadRows db).isEmpty = false)
    (hok : parseHashes (loadRows db) = Except.ok hashes) :
    (∀ i j, i < (loadRows db).length → j < (loadRows db).length →
      ((∃ g,
        groupIdOfPath (detect_duplicates db setting).store ((detPaths db).getD i "") = some g ∧
        groupIdOfPath (detect_duplicates db setting).store ((detPaths db).getD j "") = some g)
        ↔ (Relation.EqvGen (MatchRel hashes (detMaxd setting)) i j ∧
           ∃ k, k < (loadRows db).length ∧ k ≠ i ∧
             Relation.EqvGen (MatchRel hashes (detMaxd setting)) i k))) ∧
    (∀ a b c, a < (loadRows db).length → b < (loadRows db).length → c < (loadRows db).length →
      a ≠ b → b ≠ c →
      (hamming (hashes.getD a 0) (hashes.getD b 0) : Int) ≤ detMaxd setting →
      (hamming (hashes.getD b 0) (hashes.getD c 0) : Int) ≤ detMaxd setting →
      ∃ g,
        groupIdOfPath (detect_duplicates db setting).store ((detPaths db).getD a "") = some g ∧
        groupIdOfPath (detect_duplicates db setting).store ((detPaths db).getD b "") = some g ∧
        groupIdOfPath (detect_duplicates db setting).store ((detPaths db).getD c "") = some g) := by
  have hlen : hashes.length = (loadRows db).length := parseHashes_length hok
  constructor
  · intro i j hi hj
    rw [detect_gid_iff hnd hrows hok hi hj, detRoots_eqvGen_iff setting hok i j hi hj,
      detRoots_retained_iff setting hok hi]
    constructor
    · rintro ⟨he, k, hk1, hk2, hk3⟩
      exact ⟨he, k, hk1, hk2,
        Relation.EqvGen.symm k i ((detRoots_eqvGen_iff setting hok k i hk1 hi).mp hk3)⟩
    · rintro ⟨he, k, hk1, hk2, hk3⟩
      exact ⟨he, k, hk1, hk2,
        (detRoots_eqvGen_iff setting hok k i hk1 hi).mpr (Relation.EqvGen.symm i k hk3)⟩
  · intro a b c ha hb hc hab hbc hd1 hd2
    have e1 : Relation.EqvGen (MatchRel hashes (detMaxd setting)) a b :=
      Relation.EqvGen.rel a b
        (show a < hashes.length ∧ b < hashes.length ∧ a ≠ b ∧
            (hamming (hashes.getD a 0) (hashes.getD b 0) : Int) ≤ detMaxd setting from
          ⟨by omega, by omega, hab, hd1⟩)
    have e2 : Relation.EqvGen (MatchRel hashes (detMaxd setting)) b c :=
      Relation.EqvGen.rel b c
        (show b < hashes.length ∧ c < hashes.length ∧ b ≠ c ∧
            (hamming (hashes.getD b 0) (hashes.getD c 0) : Int) ≤ detMaxd setting from
          ⟨by omega, by omega, hbc, hd2⟩)
    have hac : Relation.EqvGen (MatchRel hashes (detMaxd setting)) a c :=
      Relation.EqvGen.trans a b c e1 e2
    have hrab : (detRoots db setting hashes).getD a 0 = (detRoots db setting hashes).getD b 0 :=
      (detRoots_eqvGen_iff setting hok a b ha hb).mpr e1
    have hrac : (detRoots db setting hashes).getD a 0 = (detRoots db setting hashes).getD c 0 :=
      (detRoots_eqvGen_iff setting hok a c ha hc).mpr hac
    have hreta : (detRoots db setting hashes).getD a 0 ∈
        dupRootsSorted (detRoots db setting hashes) :=
      (detRoots_retained_iff setting hok ha).mpr ⟨b, hb, Ne.symm hab, hrab.symm⟩
    obtain ⟨g, hga, hgb⟩ := (detect_gid_iff hnd hrows hok ha hb).mpr ⟨hrab, hreta⟩
    obtain ⟨g2, hga2, hgc⟩ := (detect_gid_iff hnd hrows hok ha hc).mpr ⟨hrac, hreta⟩
    have hgg : g2 = g := by
      rw [hga] at hga2
      injection hga2 with hx
      exact hx.symm
    refine ⟨g, hga, hgb, ?_⟩
    rw [hgc, hgg]

/-- C4 witness: in `db8` the photos "a" (index 0) and "f" (index 5) are
both within threshold of "h" (index 7) but not of each other; all three
share one persisted group id. -/
theorem C4_transitive_components_witness :
    (loadRows db8).isEmpty = false ∧
    (hamming (hs8.getD 0 0) (hs8.getD 7 0) : Int) ≤ detMaxd none ∧
    (hamming (hs8.getD 7 0) (hs8.getD 5 0) : Int) ≤ detMaxd none ∧
    ¬((hamming (hs8.getD 0 0) (hs8.getD 5 0) : Int) ≤ detMaxd none) ∧
    (∃ g,
      groupIdOfPath (detect_duplicates db8 none).store ((detPaths db8).getD 0 "") = some g ∧
      groupIdOfPath (detect_duplicates db8 none).store ((detPaths db8).getD 7 "") = some g ∧
      groupIdOfPath (detect_duplicates db8 none).store ((detPaths db8).getD 5 "") = some g) :=
  ⟨by decide, by decide, by decide, by decide,
   (@C4_transitive_components db8 none hs8 (by decide) (by decide) rfl).2 0 7 5
     (by decide) (by decide) (by decide) (by decide) (by decide) (by decide) (by decide)⟩
